import Mathlib

/-!
Shallow embedding of the `better_peekable` crate and proofs of its spec
claims.  The crate consists of a fixed-capacity ring buffer
(`src/dequeue/mod.rs`, here `Dequeue`) and, on top of it, a
bounded-lookahead iterator adapter with typed peek cursors
(`src/iterator/mod.rs`, here `BPeekN` and the cursor operations).

Modeling conventions:
* `usize` indices and lengths are `Nat`; the wrapping index arithmetic of
  `Wrapping<N>` / `Bounded<N>` is made explicit (`wrapInc`, `wrapDec`,
  `wrapAdd`).
* A `MaybeUninit<T>` slot is an `Option α`: `some` is an occupied slot,
  `none` a vacant one.  `assume_init_read` returns the value and leaves
  the slot logically vacant, which the model makes explicit by clearing
  the slot; `assume_init_drop` followed by `write` is a plain overwrite.
* The wrapped source iterator is the list of elements it has yet to
  produce; pulling `next` is taking the head.
* A Rust panic (`expect` / `PushStatus::assert`) is modeled with
  `Except Unit` where a claim's behavior depends on it; `assert` calls
  that are unreachable under the proved invariants are modeled as keeping
  the state of a rejected push (which the rejection itself leaves
  unchanged).
* Source `while` / `for` loops are embedded as structurally recursive
  functions on an explicit fuel argument; every use instantiates the fuel
  with a bound proved sufficient, so the fueled function agrees with the
  unbounded loop.
-/

namespace BetterPeekable

/-- Model of `Wrapping<N>::inc`: increment a physical index, wrapping from
`N - 1` back to `0`. -/
def wrapInc (N s : Nat) : Nat := if s = N - 1 then 0 else s + 1

/-- Model of `Wrapping<N>::dec`: decrement a physical index; the
`checked_sub` failure branch wraps `0` to `N - 1`. -/
def wrapDec (N s : Nat) : Nat := if s = 0 then N - 1 else s - 1

/-- Model of `AddAssign<Bounded<N>> for Wrapping<N>`: add a bounded offset
to a physical index, subtracting `N` once when the sum reaches `N`.  (The
source's `overflowing_add` cannot overflow `usize` here: both summands are
at most `N`.) -/
def wrapAdd (N s p : Nat) : Nat := if N ≤ s + p then s + p - N else s + p

/-- Model of `Dequeue<T, N>`: `N` storage slots (`data`, always of length
`N` under the representation invariant), the physical index `start` of
logical index `0`, and the number `len` of occupied logical positions. -/
structure Dequeue (α : Type) (N : Nat) where
  data : List (Option α)
  start : Nat
  len : Nat
deriving DecidableEq

namespace Dequeue

variable {α : Type} {N : Nat}

/-- Model of `Dequeue::new`: empty buffer, all slots vacant. -/
def new (α : Type) (N : Nat) : Dequeue α N :=
  ⟨List.replicate N none, 0, 0⟩

/-- Model of `Dequeue::write_at`: write `item` to the physical slot of
logical position `pos`. -/
def writeAt (d : Dequeue α N) (pos : Nat) (item : α) : Dequeue α N :=
  { d with data := d.data.set (wrapAdd N d.start pos) (some item) }

/-- Model of `PushStatus<T>`. -/
inductive PushStatus (α : Type) where
  | Success : PushStatus α
  | Rejected : α → PushStatus α
deriving DecidableEq

/-- Model of `Dequeue::push_back`: reject when full (`Bounded::inc`
fails at `len == N`), otherwise write at logical position `len` and
increment `len`. -/
def push_back (d : Dequeue α N) (item : α) : Dequeue α N × PushStatus α :=
  if d.len = N then
    (d, .Rejected item)
  else
    ({ d.writeAt d.len item with len := d.len + 1 }, .Success)

/-- Model of `Dequeue::push_front`: reject when full, otherwise move
`start` backward by one slot, write at logical position `0`, increment
`len`. -/
def push_front (d : Dequeue α N) (item : α) : Dequeue α N × PushStatus α :=
  if d.len = N then
    (d, .Rejected item)
  else
    let d' : Dequeue α N := { d with start := wrapDec N d.start }
    ({ d'.writeAt 0 item with len := d.len + 1 }, .Success)

/-- Model of `Dequeue::overwrite_at`: drop the element at logical
position `pos` and write `item` there (the drop has no observable effect
in the model beyond replacing the slot's contents). -/
def overwriteAt (d : Dequeue α N) (pos : Nat) (item : α) : Dequeue α N :=
  { d with data := d.data.set (wrapAdd N d.start pos) (some item) }

/-- Model of `Dequeue::push_back_overwrite`: plain push when not full;
when full, overwrite the front slot (logical `0`) and advance `start`,
which makes the new element the logical back. -/
def push_back_overwrite (d : Dequeue α N) (item : α) : Dequeue α N :=
  if d.len = N then
    { d.overwriteAt 0 item with start := wrapInc N d.start }
  else
    { d.writeAt d.len item with len := d.len + 1 }

/-- Model of `Dequeue::push_front_overwrite`: plain front push when not
full; when full, move `start` backward and overwrite there, evicting the
element that was at logical position `N - 1`. -/
def push_front_overwrite (d : Dequeue α N) (item : α) : Dequeue α N :=
  if d.len = N then
    let d' : Dequeue α N := { d with start := wrapDec N d.start }
    d'.overwriteAt 0 item
  else
    let d' : Dequeue α N := { d with start := wrapDec N d.start }
    { d'.writeAt 0 item with len := d.len + 1 }

/-- The contents of physical slot `j` (vacant slots and out-of-range
physical indices both read as `none`). -/
def slotAt (d : Dequeue α N) (j : Nat) : Option α :=
  (d.data[j]?).join

/-- Model of `Dequeue::read_at`: read the slot of logical position `pos`
(`assume_init_ref`; under the representation invariant the slot is
occupied). -/
def readAt (d : Dequeue α N) (pos : Nat) : Option α :=
  d.slotAt (wrapAdd N d.start pos)

/-- Model of `Dequeue::take_at`: read the slot of logical position `pos`
and leave it vacant (`assume_init_read` moves the value out). -/
def takeAt (d : Dequeue α N) (pos : Nat) : Option α × Dequeue α N :=
  (d.readAt pos, { d with data := d.data.set (wrapAdd N d.start pos) none })

/-- Model of `Dequeue::pop_back`: `None` when empty (`Bounded::dec`
fails), otherwise take from logical position `len - 1` and decrement
`len`. -/
def pop_back (d : Dequeue α N) : Option α × Dequeue α N :=
  if d.len = 0 then
    (none, d)
  else
    let (v, d') := d.takeAt (d.len - 1)
    (v, { d' with len := d.len - 1 })

/-- Model of `Dequeue::pop_front`: `None` when empty, otherwise take from
logical position `0`, decrement `len` and advance `start`. -/
def pop_front (d : Dequeue α N) : Option α × Dequeue α N :=
  if d.len = 0 then
    (none, d)
  else
    let (v, d') := d.takeAt 0
    (v, { d' with len := d.len - 1, start := wrapInc N d.start })

/-- Model of `Dequeue::get`: the element at logical index `i` when
`i < len`, absence otherwise. -/
def get (d : Dequeue α N) (i : Nat) : Option α :=
  if i < d.len then d.readAt i else none

/-- Model of `Dequeue::is_empty`. -/
def is_empty (d : Dequeue α N) : Bool :=
  d.len == 0

/-- Vacate `k` consecutive physical slots starting at `a` (the body of
the source's drop loops in `clear`). -/
def vacateFrom (l : List (Option α)) (a : Nat) : Nat → List (Option α)
  | 0 => l
  | k + 1 => vacateFrom (l.set a none) (a + 1) k

/-- Model of `Dequeue::clear`: early-return when empty (leaving `start`
untouched); otherwise drop the single physical run `start..=last` or the
two runs `start..N` and `0..=last` of the split view, then reset `start`
and `len` to `0`. -/
def clear (d : Dequeue α N) : Dequeue α N :=
  if d.len = 0 then
    d
  else
    let lastPos := wrapAdd N d.start (d.len - 1)
    let data' :=
      if d.start ≤ lastPos then
        vacateFrom d.data d.start (lastPos + 1 - d.start)
      else
        vacateFrom (vacateFrom d.data d.start (N - d.start)) 0 (lastPos + 1)
    ⟨data', 0, 0⟩

/-- Model of `Dequeue::slices`: the one or two contiguous physical runs
holding the logical contents, in logical order. -/
def slices (d : Dequeue α N) : List (Option α) × List (Option α) :=
  if d.len = 0 then
    ([], [])
  else
    let lastPos := wrapAdd N d.start (d.len - 1)
    if d.start ≤ lastPos then
      ((d.data.drop d.start).take (lastPos + 1 - d.start), [])
    else
      (d.data.drop d.start, d.data.take (lastPos + 1))

/-- Model of `Clone for Dequeue`: copy the slices to the front of a fresh
all-vacant backing array, normalizing `start` to `0` and keeping `len`. -/
def clone (d : Dequeue α N) : Dequeue α N :=
  let s := d.slices
  ⟨((s.1 ++ s.2) ++ List.replicate N none).take N, 0, d.len⟩

/-- Abstraction function: the logical contents of the buffer, front to
back.  (Not a source function; the claims' reference point.) -/
def toList (d : Dequeue α N) : List α :=
  (List.range d.len).filterMap d.get

/-- Representation invariant of the ring buffer: the backing store has
exactly `N` slots, `len ≤ N`, `start` is a valid physical index, the `len`
logical positions map to occupied slots, and every other slot is vacant. -/
def Inv (d : Dequeue α N) : Prop :=
  d.data.length = N ∧ d.len ≤ N ∧ d.start < N ∧
    (∀ i < d.len, (d.slotAt ((d.start + i) % N)).isSome) ∧
    (∀ j < N, (∀ i < d.len, (d.start + i) % N ≠ j) → d.slotAt j = none)

instance {α : Type} [DecidableEq α] {N : Nat} (d : Dequeue α N) :
    Decidable d.Inv := by
  unfold Inv
  infer_instance

end Dequeue

section WrapArith

/-- `wrapAdd` agrees with addition modulo `N` on the index ranges the
buffer actually uses. -/
theorem wrapAdd_eq_mod {N s p : Nat} (hs : s < N) (hp : p ≤ N) :
    wrapAdd N s p = (s + p) % N := by
  unfold wrapAdd
  by_cases h : N ≤ s + p
  · rw [if_pos h, Nat.mod_eq_sub_mod h, Nat.mod_eq_of_lt (by omega)]
  · rw [if_neg h, Nat.mod_eq_of_lt (by omega)]

/-- `wrapInc` agrees with successor modulo `N` on valid indices. -/
theorem wrapInc_eq_mod {N s : Nat} (hs : s < N) :
    wrapInc N s = (s + 1) % N := by
  unfold wrapInc
  by_cases h : s = N - 1
  · rw [if_pos h]
    have hN : 0 < N := Nat.lt_of_le_of_lt (Nat.zero_le s) hs
    have : s + 1 = N := by omega
    rw [this, Nat.mod_self]
  · rw [if_neg h, Nat.mod_eq_of_lt (by omega)]

/-- `wrapDec` agrees with adding `N - 1` modulo `N` on valid indices. -/
theorem wrapDec_eq_mod {N s : Nat} (hs : s < N) :
    wrapDec N s = (s + (N - 1)) % N := by
  unfold wrapDec
  by_cases h : s = 0
  · rw [if_pos h, h, Nat.zero_add, Nat.mod_eq_of_lt (by omega)]
  · rw [if_neg h, Nat.mod_eq_sub_mod (by omega), Nat.mod_eq_of_lt (by omega)]
    omega

/-- Adding distinct offsets below `N` to a common base gives distinct
residues modulo `N`: the logical-to-physical map is injective. -/
theorem add_mod_inj {N s i j : Nat} (hi : i < N) (hj : j < N)
    (h : (s + i) % N = (s + j) % N) : i = j := by
  have h' : i ≡ j [MOD N] := Nat.ModEq.add_left_cancel' s h
  have h2 : i % N = j % N := h'
  rwa [Nat.mod_eq_of_lt hi, Nat.mod_eq_of_lt hj] at h2

end WrapArith

section FilterMapHelpers

variable {γ β : Type}

/-- `filterMap` over a list where the function is everywhere `some`
indexes like the original list composed with the function. -/
theorem filterMap_getElem?_of_isSome {f : γ → Option β} :
    ∀ (l : List γ), (∀ a ∈ l, (f a).isSome) → ∀ i : Nat,
      (l.filterMap f)[i]? = (l[i]?).bind f
  | [], _, i => by simp
  | a :: t, h, i => by
    obtain ⟨b, hb⟩ := Option.isSome_iff_exists.mp (h a (by simp))
    rw [List.filterMap_cons_some hb]
    cases i with
    | zero => simp [hb]
    | succ i =>
      rw [List.getElem?_cons_succ, List.getElem?_cons_succ,
        filterMap_getElem?_of_isSome t (fun x hx => h x (by simp [hx])) i]

/-- `filterMap` over a list where the function is everywhere `some`
preserves the length. -/
theorem length_filterMap_of_isSome {f : γ → Option β} :
    ∀ (l : List γ), (∀ a ∈ l, (f a).isSome) →
      (l.filterMap f).length = l.length
  | [], _ => rfl
  | a :: t, h => by
    obtain ⟨b, hb⟩ := Option.isSome_iff_exists.mp (h a (by simp))
    rw [List.filterMap_cons_some hb, List.length_cons, List.length_cons,
      length_filterMap_of_isSome t (fun x hx => h x (by simp [hx]))]

end FilterMapHelpers

namespace Dequeue

variable {α : Type} {N : Nat}

theorem Inv.data_length {d : Dequeue α N} (h : d.Inv) : d.data.length = N := h.1

theorem Inv.len_le {d : Dequeue α N} (h : d.Inv) : d.len ≤ N := h.2.1

theorem Inv.start_lt {d : Dequeue α N} (h : d.Inv) : d.start < N := h.2.2.1

theorem Inv.occupied {d : Dequeue α N} (h : d.Inv) :
    ∀ i < d.len, (d.slotAt ((d.start + i) % N)).isSome := h.2.2.2.1

theorem Inv.vacant {d : Dequeue α N} (h : d.Inv) :
    ∀ j < N, (∀ i < d.len, (d.start + i) % N ≠ j) → d.slotAt j = none :=
  h.2.2.2.2

theorem Inv.pos {d : Dequeue α N} (h : d.Inv) : 0 < N :=
  Nat.lt_of_le_of_lt (Nat.zero_le d.start) h.start_lt

/-- Under the invariant, `get` at a valid logical index reads the slot at
the modular physical position. -/
theorem get_eq_slot {d : Dequeue α N} (h : d.Inv) {i : Nat} (hi : i < d.len) :
    d.get i = d.slotAt ((d.start + i) % N) := by
  unfold get readAt
  rw [if_pos hi, wrapAdd_eq_mod h.start_lt (Nat.le_trans (Nat.le_of_lt hi) h.len_le)]

theorem get_of_le {d : Dequeue α N} {i : Nat} (hi : d.len ≤ i) :
    d.get i = none := by
  unfold get
  rw [if_neg (by omega)]

theorem get_isSome {d : Dequeue α N} (h : d.Inv) {i : Nat} (hi : i < d.len) :
    (d.get i).isSome := by
  rw [get_eq_slot h hi]
  exact h.occupied i hi

/-- Under the invariant, `toList` indexes exactly as `get`. -/
theorem toList_getElem? {d : Dequeue α N} (h : d.Inv) (i : Nat) :
    (d.toList)[i]? = d.get i := by
  unfold toList
  rw [filterMap_getElem?_of_isSome (List.range d.len)
    (fun a ha => get_isSome h (List.mem_range.mp ha))]
  by_cases hi : i < d.len
  · rw [List.getElem?_range hi, Option.some_bind]
  · rw [List.getElem?_eq_none (by rw [List.length_range]; omega),
      Option.none_bind, get_of_le (by omega)]

theorem toList_length {d : Dequeue α N} (h : d.Inv) :
    (d.toList).length = d.len := by
  unfold toList
  rw [length_filterMap_of_isSome (List.range d.len)
    (fun a ha => get_isSome h (List.mem_range.mp ha)), List.length_range]

/-- To identify `toList` with a target list it suffices to match `get`
against the target's entries. -/
theorem toList_eq {d : Dequeue α N} (h : d.Inv) {L : List α}
    (hL : ∀ i, d.get i = L[i]?) : d.toList = L := by
  apply List.ext_getElem?
  intro i
  rw [toList_getElem? h, hL]

/-- Reading a slot of a buffer whose backing store is an update of `l`. -/
theorem slotAt_of_data {x : Dequeue α N} {l : List (Option α)} {p : Nat}
    {v : Option α} (hx : x.data = l.set p v) (j : Nat) :
    x.slotAt j = if p = j ∧ p < l.length then v else (l[j]?).join := by
  unfold slotAt
  rw [hx, List.getElem?_set]
  by_cases hpj : p = j
  · subst hpj
    by_cases hp : p < l.length
    · rw [if_pos rfl, if_pos hp, if_pos ⟨rfl, hp⟩]
      rfl
    · rw [if_pos rfl, if_neg hp, if_neg (by tauto),
        List.getElem?_eq_none (by omega)]
  · rw [if_neg hpj, if_neg (by tauto)]

/-- `get` after a successful `push_back`: the old contents followed by the
new element at logical index `len`. -/
theorem get_push_back {d : Dequeue α N} (h : d.Inv) (hlt : d.len < N) (x : α)
    (i : Nat) :
    ((d.push_back x).1).get i =
      if i < d.len then d.get i else if i = d.len then some x else none := by
  have hd := h.data_length
  have hs := h.start_lt
  have hdat : ((d.push_back x).1).data =
      d.data.set (wrapAdd N d.start d.len) (some x) := by
    unfold push_back writeAt
    rw [if_neg (by omega)]
  have hlen : ((d.push_back x).1).len = d.len + 1 := by
    unfold push_back writeAt
    rw [if_neg (by omega)]
  have hst : ((d.push_back x).1).start = d.start := by
    unfold push_back writeAt
    rw [if_neg (by omega)]
  have hw : wrapAdd N d.start d.len = (d.start + d.len) % N :=
    wrapAdd_eq_mod hs (by omega)
  unfold get readAt
  rw [hlen, hst]
  by_cases hi : i < d.len
  · rw [if_pos (by omega), if_pos hi,
      slotAt_of_data (l := d.data) (by rw [hdat, hw]) _,
      wrapAdd_eq_mod hs (by omega),
      if_neg (by
        rintro ⟨heq, -⟩
        exact absurd (add_mod_inj (by omega) (by omega) heq) (by omega))]
    rw [if_pos hi]
    rfl
  · by_cases hieq : i = d.len
    · subst hieq
      rw [if_pos (by omega), if_neg (by omega), if_pos rfl,
        slotAt_of_data (l := d.data) (by rw [hdat, hw]) _,
        wrapAdd_eq_mod hs (by omega),
        if_pos ⟨rfl, by rw [hd]; exact Nat.mod_lt _ (by omega)⟩]
    · rw [if_neg (by omega), if_neg (by omega), if_neg (by omega)]

/-- `push_back` preserves the representation invariant. -/
theorem Inv.push_back {d : Dequeue α N} (h : d.Inv) (x : α) :
    ((d.push_back x).1).Inv := by
  by_cases hfull : d.len = N
  · have : (d.push_back x).1 = d := by unfold Dequeue.push_back; rw [if_pos hfull]
    rw [this]
    exact h
  · have hd := h.data_length
    have hs := h.start_lt
    have hl := h.len_le
    have hdat : ((d.push_back x).1).data =
        d.data.set (wrapAdd N d.start d.len) (some x) := by
      unfold Dequeue.push_back writeAt
      rw [if_neg hfull]
    have hlen : ((d.push_back x).1).len = d.len + 1 := by
      unfold Dequeue.push_back writeAt
      rw [if_neg hfull]
    have hst : ((d.push_back x).1).start = d.start := by
      unfold Dequeue.push_back writeAt
      rw [if_neg hfull]
    have hw : wrapAdd N d.start d.len = (d.start + d.len) % N :=
      wrapAdd_eq_mod hs (by omega)
    have hslot : ∀ j, ((d.push_back x).1).slotAt j =
        if (d.start + d.len) % N = j ∧ (d.start + d.len) % N < d.data.length
        then some x else d.slotAt j := by
      intro j
      rw [slotAt_of_data (l := d.data) (by rw [hdat, hw]) j]
      rfl
    refine ⟨by rw [hdat, List.length_set, hd], by omega, by rw [hst]; omega,
      ?_, ?_⟩
    · intro i hi
      rw [hlen] at hi
      rw [hst, hslot]
      by_cases hi' : i < d.len
      · rw [if_neg (by
          rintro ⟨heq, -⟩
          exact absurd (add_mod_inj (by omega) (by omega) heq) (by omega))]
        exact h.occupied i hi'
      · have : i = d.len := by omega
        subst this
        rw [if_pos ⟨rfl, by rw [hd]; exact Nat.mod_lt _ (by omega)⟩]
        rfl
    · intro j hj hall
      rw [hlen, hst] at hall
      rw [hslot, if_neg (by
        rintro ⟨heq, -⟩
        exact hall d.len (by omega) heq)]
      exact h.vacant j hj (fun i hi => hall i (by omega))

theorem wrapDec_lt {N s : Nat} (hs : s < N) : wrapDec N s < N := by
  unfold wrapDec
  split <;> omega

theorem wrapInc_lt {N s : Nat} (hs : s < N) : wrapInc N s < N := by
  unfold wrapInc
  split <;> omega

/-- `get` after a successful `push_front`: the new element at logical
index `0` followed by the old contents. -/
theorem get_push_front {d : Dequeue α N} (h : d.Inv) (hlt : d.len < N) (x : α)
    (i : Nat) :
    ((d.push_front x).1).get i =
      if i = 0 then some x
      else if i < d.len + 1 then d.get (i - 1) else none := by
  have hd := h.data_length
  have hs := h.start_lt
  have hs' : wrapDec N d.start < N := wrapDec_lt hs
  have hdec : wrapDec N d.start = (d.start + (N - 1)) % N := wrapDec_eq_mod hs
  have hdat : ((d.push_front x).1).data =
      d.data.set (wrapAdd N (wrapDec N d.start) 0) (some x) := by
    unfold push_front writeAt
    rw [if_neg (by omega)]
  have hlen : ((d.push_front x).1).len = d.len + 1 := by
    unfold push_front writeAt
    rw [if_neg (by omega)]
  have hst : ((d.push_front x).1).start = wrapDec N d.start := by
    unfold push_front writeAt
    rw [if_neg (by omega)]
  have hw0 : wrapAdd N (wrapDec N d.start) 0 = wrapDec N d.start := by
    rw [wrapAdd_eq_mod hs' (by omega), Nat.add_zero, Nat.mod_eq_of_lt hs']
  have hshift : ∀ k, (wrapDec N d.start + (k + 1)) % N = (d.start + k) % N := by
    intro k
    rw [hdec, Nat.mod_add_mod]
    have : d.start + (N - 1) + (k + 1) = d.start + k + N := by omega
    rw [this, Nat.add_mod_right]
  unfold get readAt
  rw [hlen, hst]
  by_cases hi0 : i = 0
  · subst hi0
    rw [if_pos (by omega), if_pos rfl,
      slotAt_of_data (l := d.data) (by rw [hdat]) _, hw0,
      if_pos ⟨rfl, by rw [hd]; exact hs'⟩]
  · by_cases hi : i < d.len + 1
    · obtain ⟨k, rfl⟩ : ∃ k, i = k + 1 := ⟨i - 1, by omega⟩
      rw [if_pos hi, if_neg hi0, if_pos hi,
        slotAt_of_data (l := d.data) (by rw [hdat]) _, hw0,
        wrapAdd_eq_mod hs' (by omega), hshift k,
        if_neg (by
          rintro ⟨heq, -⟩
          rw [hdec] at heq
          exact absurd (add_mod_inj (by omega) (by omega) heq) (by omega)),
        Nat.add_sub_cancel]
      rw [if_pos (by omega), wrapAdd_eq_mod hs (by omega)]
      rfl
    · rw [if_neg hi, if_neg hi0, if_neg hi]

/-- `push_front` preserves the representation invariant. -/
theorem Inv.push_front {d : Dequeue α N} (h : d.Inv) (x : α) :
    ((d.push_front x).1).Inv := by
  by_cases hfull : d.len = N
  · have : (d.push_front x).1 = d := by
      unfold Dequeue.push_front
      rw [if_pos hfull]
    rw [this]
    exact h
  · have hd := h.data_length
    have hs := h.start_lt
    have hl := h.len_le
    have hs' : wrapDec N d.start < N := wrapDec_lt hs
    have hdec : wrapDec N d.start = (d.start + (N - 1)) % N := wrapDec_eq_mod hs
    have hdat : ((d.push_front x).1).data =
        d.data.set (wrapAdd N (wrapDec N d.start) 0) (some x) := by
      unfold Dequeue.push_front writeAt
      rw [if_neg hfull]
    have hlen : ((d.push_front x).1).len = d.len + 1 := by
      unfold Dequeue.push_front writeAt
      rw [if_neg hfull]
    have hst : ((d.push_front x).1).start = wrapDec N d.start := by
      unfold Dequeue.push_front writeAt
      rw [if_neg hfull]
    have hw0 : wrapAdd N (wrapDec N d.start) 0 = wrapDec N d.start := by
      rw [wrapAdd_eq_mod hs' (by omega), Nat.add_zero, Nat.mod_eq_of_lt hs']
    have hshift : ∀ k, (wrapDec N d.start + (k + 1)) % N = (d.start + k) % N := by
      intro k
      rw [hdec, Nat.mod_add_mod]
      have : d.start + (N - 1) + (k + 1) = d.start + k + N := by omega
      rw [this, Nat.add_mod_right]
    have hself : (wrapDec N d.start + 0) % N = wrapDec N d.start := by
      rw [Nat.add_zero, Nat.mod_eq_of_lt hs']
    have hslot : ∀ j, ((d.push_front x).1).slotAt j =
        if wrapDec N d.start = j ∧ wrapDec N d.start < d.data.length
        then some x else d.slotAt j := by
      intro j
      rw [slotAt_of_data (l := d.data) (by rw [hdat, hw0]) j]
      rfl
    refine ⟨by rw [hdat, List.length_set, hd], by omega, by rw [hst]; omega,
      ?_, ?_⟩
    · intro i hi
      rw [hlen] at hi
      rw [hst, hslot]
      by_cases hi0 : i = 0
      · subst hi0
        rw [hself, if_pos ⟨rfl, by omega⟩]
        rfl
      · obtain ⟨k, rfl⟩ : ∃ k, i = k + 1 := ⟨i - 1, by omega⟩
        rw [hshift k, if_neg (by
          rintro ⟨heq, -⟩
          have h2 : (wrapDec N d.start + 0) % N =
              (wrapDec N d.start + (k + 1)) % N := by
            rw [hself, hshift k]
            exact heq
          exact absurd (add_mod_inj (by omega) (by omega) h2) (by omega))]
        exact h.occupied k (by omega)
    · intro j hj hall
      rw [hlen, hst] at hall
      rw [hslot, if_neg (by
        rintro ⟨heq, -⟩
        exact hall 0 (by omega) (by rw [hself]; exact heq))]
      refine h.vacant j hj (fun i hi => ?_)
      have := hall (i + 1) (by omega)
      rwa [hshift i] at this

/-- `toList` after a successful `push_front` prepends the new element. -/
theorem toList_push_front {d : Dequeue α N} (h : d.Inv) (hlt : d.len < N)
    (x : α) : ((d.push_front x).1).toList = x :: d.toList := by
  have hinv := h.push_front (x := x)
  apply toList_eq hinv
  intro i
  rw [get_push_front h hlt]
  cases i with
  | zero =>
    rw [if_pos rfl]
    simp
  | succ k =>
    rw [if_neg (by omega), List.getElem?_cons_succ]
    by_cases hk : k < d.len
    · rw [if_pos (by omega), Nat.add_sub_cancel, toList_getElem? h]
    · rw [if_neg (by omega), List.getElem?_eq_none (by rw [toList_length h]; omega)]

/-- The value returned by a successful `pop_front` is the logical front. -/
theorem pop_front_fst {d : Dequeue α N} (hne : d.len ≠ 0) :
    (d.pop_front).1 = d.get 0 := by
  unfold pop_front takeAt get
  rw [if_neg hne, if_pos (by omega)]

/-- `get` after `pop_front` shifts all logical indices down by one. -/
theorem get_pop_front {d : Dequeue α N} (h : d.Inv) (hne : d.len ≠ 0)
    (i : Nat) : ((d.pop_front).2).get i = d.get (i + 1) := by
  have hd := h.data_length
  have hs := h.start_lt
  have hl := h.len_le
  have hdat : ((d.pop_front).2).data =
      d.data.set (wrapAdd N d.start 0) none := by
    unfold pop_front takeAt
    rw [if_neg hne]
  have hlen : ((d.pop_front).2).len = d.len - 1 := by
    unfold pop_front takeAt
    rw [if_neg hne]
  have hst : ((d.pop_front).2).start = wrapInc N d.start := by
    unfold pop_front takeAt
    rw [if_neg hne]
  have hw0 : wrapAdd N d.start 0 = d.start := by
    rw [wrapAdd_eq_mod hs (by omega), Nat.add_zero, Nat.mod_eq_of_lt hs]
  have hinc : wrapInc N d.start = (d.start + 1) % N := wrapInc_eq_mod hs
  have hshift : ∀ k, (wrapInc N d.start + k) % N = (d.start + (k + 1)) % N := by
    intro k
    rw [hinc, Nat.mod_add_mod]
    congr 1
    omega
  unfold get readAt
  rw [hlen, hst]
  by_cases hi : i < d.len - 1
  · rw [if_pos hi, if_pos (by omega),
      slotAt_of_data (l := d.data) (by rw [hdat, hw0]) _,
      wrapAdd_eq_mod (by rw [hinc]; exact Nat.mod_lt _ (by omega)) (by omega),
      hshift i,
      if_neg (by
        rintro ⟨heq, -⟩
        have hzero : (d.start + 0) % N = d.start := by
          rw [Nat.add_zero]
          exact Nat.mod_eq_of_lt hs
        have h2 : (d.start + 0) % N = (d.start + (i + 1)) % N := by
          rw [hzero]
          exact heq
        exact absurd (add_mod_inj (by omega) (by omega) h2) (by omega)),
      wrapAdd_eq_mod hs (by omega)]
    rfl
  · rw [if_neg hi, if_neg (by omega)]

/-- `pop_front` preserves the representation invariant. -/
theorem Inv.pop_front {d : Dequeue α N} (h : d.Inv) : ((d.pop_front).2).Inv := by
  by_cases hne : d.len = 0
  · have : (d.pop_front).2 = d := by
      unfold Dequeue.pop_front
      rw [if_pos hne]
    rw [this]
    exact h
  · have hd := h.data_length
    have hs := h.start_lt
    have hl := h.len_le
    have hdat : ((d.pop_front).2).data =
        d.data.set (wrapAdd N d.start 0) none := by
      unfold Dequeue.pop_front takeAt
      rw [if_neg hne]
    have hlen : ((d.pop_front).2).len = d.len - 1 := by
      unfold Dequeue.pop_front takeAt
      rw [if_neg hne]
    have hst : ((d.pop_front).2).start = wrapInc N d.start := by
      unfold Dequeue.pop_front takeAt
      rw [if_neg hne]
    have hw0 : wrapAdd N d.start 0 = d.start := by
      rw [wrapAdd_eq_mod hs (by omega), Nat.add_zero, Nat.mod_eq_of_lt hs]
    have hinc : wrapInc N d.start = (d.start + 1) % N := wrapInc_eq_mod hs
    have hinclt : wrapInc N d.start < N := wrapInc_lt hs
    have hshift : ∀ k, (wrapInc N d.start + k) % N = (d.start + (k + 1)) % N := by
      intro k
      rw [hinc, Nat.mod_add_mod]
      congr 1
      omega
    have hslot : ∀ j, ((d.pop_front).2).slotAt j =
        if d.start = j ∧ d.start < d.data.length then none else d.slotAt j := by
      intro j
      rw [slotAt_of_data (l := d.data) (by rw [hdat, hw0]) j]
      rfl
    refine ⟨by rw [hdat, List.length_set, hd], by omega, by rw [hst]; omega,
      ?_, ?_⟩
    · intro i hi
      rw [hlen] at hi
      rw [hst, hslot, hshift i, if_neg (by
        rintro ⟨heq, -⟩
        have hzero : (d.start + 0) % N = d.start := by
          rw [Nat.add_zero]
          exact Nat.mod_eq_of_lt hs
        have h2 : (d.start + (i + 1)) % N = (d.start + 0) % N := by
          rw [hzero]
          exact heq.symm
        exact absurd (add_mod_inj (by omega) (by omega) h2) (by omega))]
      exact h.occupied (i + 1) (by omega)
    · intro j hj hall
      rw [hlen, hst] at hall
      rw [hslot]
      by_cases hj0 : d.start = j
      · rw [if_pos ⟨hj0, by omega⟩]
      · rw [if_neg (by tauto)]
        refine h.vacant j hj (fun i hi => ?_)
        cases i with
        | zero =>
          rw [Nat.add_zero, Nat.mod_eq_of_lt hs]
          exact hj0
        | succ k =>
          have := hall k (by omega)
          rwa [hshift k] at this

/-- `toList` after a successful `pop_front` is the tail. -/
theorem toList_pop_front {d : Dequeue α N} (h : d.Inv) :
    ((d.pop_front).2).toList = d.toList.tail := by
  by_cases hne : d.len = 0
  · have h2 : (d.pop_front).2 = d := by
      unfold Dequeue.pop_front
      rw [if_pos hne]
    have h3 : d.toList = [] := by
      unfold toList
      rw [hne]
      rfl
    rw [h2, h3]
    rfl
  · apply toList_eq (h.pop_front)
    intro i
    rw [get_pop_front h hne, ← List.drop_one, List.getElem?_drop,
      toList_getElem? h, Nat.add_comm]

/-- The value returned by `pop_front` is the head of the logical list. -/
theorem pop_front_fst_toList {d : Dequeue α N} (h : d.Inv) :
    (d.pop_front).1 = d.toList.head? := by
  by_cases hne : d.len = 0
  · have h2 : (d.pop_front).1 = none := by
      unfold Dequeue.pop_front
      rw [if_pos hne]
    have h3 : d.toList = [] := by
      unfold toList
      rw [hne]
      rfl
    rw [h2, h3]
    rfl
  · rw [pop_front_fst hne, List.head?_eq_getElem?, toList_getElem? h]

/-- The value returned by a successful `pop_back` is the logical back. -/
theorem pop_back_fst {d : Dequeue α N} (hne : d.len ≠ 0) :
    (d.pop_back).1 = d.get (d.len - 1) := by
  unfold pop_back takeAt get
  rw [if_neg hne, if_pos (by omega)]

/-- `get` after `pop_back` is unchanged below the removed index. -/
theorem get_pop_back {d : Dequeue α N} (h : d.Inv) (hne : d.len ≠ 0)
    (i : Nat) :
    ((d.pop_back).2).get i = if i < d.len - 1 then d.get i else none := by
  have hd := h.data_length
  have hs := h.start_lt
  have hl := h.len_le
  have hdat : ((d.pop_back).2).data =
      d.data.set (wrapAdd N d.start (d.len - 1)) none := by
    unfold pop_back takeAt
    rw [if_neg hne]
  have hlen : ((d.pop_back).2).len = d.len - 1 := by
    unfold pop_back takeAt
    rw [if_neg hne]
  have hst : ((d.pop_back).2).start = d.start := by
    unfold pop_back takeAt
    rw [if_neg hne]
  have hw : wrapAdd N d.start (d.len - 1) = (d.start + (d.len - 1)) % N :=
    wrapAdd_eq_mod hs (by omega)
  unfold get readAt
  rw [hlen, hst]
  by_cases hi : i < d.len - 1
  · rw [if_pos hi, if_pos hi,
      slotAt_of_data (l := d.data) (by rw [hdat, hw]) _,
      wrapAdd_eq_mod hs (by omega),
      if_neg (by
        rintro ⟨heq, -⟩
        exact absurd (add_mod_inj (by omega) (by omega) heq) (by omega))]
    rw [if_pos (by omega)]
    rfl
  · rw [if_neg hi, if_neg hi]

/-- `pop_back` preserves the representation invariant. -/
theorem Inv.pop_back {d : Dequeue α N} (h : d.Inv) : ((d.pop_back).2).Inv := by
  by_cases hne : d.len = 0
  · have : (d.pop_back).2 = d := by
      unfold Dequeue.pop_back
      rw [if_pos hne]
    rw [this]
    exact h
  · have hd := h.data_length
    have hs := h.start_lt
    have hl := h.len_le
    have hdat : ((d.pop_back).2).data =
        d.data.set (wrapAdd N d.start (d.len - 1)) none := by
      unfold Dequeue.pop_back takeAt
      rw [if_neg hne]
    have hlen : ((d.pop_back).2).len = d.len - 1 := by
      unfold Dequeue.pop_back takeAt
      rw [if_neg hne]
    have hst : ((d.pop_back).2).start = d.start := by
      unfold Dequeue.pop_back takeAt
      rw [if_neg hne]
    have hw : wrapAdd N d.start (d.len - 1) = (d.start + (d.len - 1)) % N :=
      wrapAdd_eq_mod hs (by omega)
    have hslot : ∀ j, ((d.pop_back).2).slotAt j =
        if (d.start + (d.len - 1)) % N = j ∧ (d.start + (d.len - 1)) % N < d.data.length
        then none else d.slotAt j := by
      intro j
      rw [slotAt_of_data (l := d.data) (by rw [hdat, hw]) j]
      rfl
    refine ⟨by rw [hdat, List.length_set, hd], by omega, by rw [hst]; omega,
      ?_, ?_⟩
    · intro i hi
      rw [hlen] at hi
      rw [hst, hslot, if_neg (by
        rintro ⟨heq, -⟩
        exact absurd (add_mod_inj (by omega) (by omega) heq) (by omega))]
      exact h.occupied i (by omega)
    · intro j hj hall
      rw [hlen, hst] at hall
      rw [hslot]
      by_cases hjlast : (d.start + (d.len - 1)) % N = j
      · rw [if_pos ⟨hjlast, by rw [hd]; exact Nat.mod_lt _ (by omega)⟩]
      · rw [if_neg (by tauto)]
        refine h.vacant j hj (fun i hi => ?_)
        by_cases hi' : i < d.len - 1
        · exact hall i (by omega)
        · have : i = d.len - 1 := by omega
          subst this
          exact hjlast

/-- `toList` after a successful `pop_back` drops the last element. -/
theorem toList_pop_back {d : Dequeue α N} (h : d.Inv) :
    ((d.pop_back).2).toList = d.toList.dropLast := by
  by_cases hne : d.len = 0
  · have h2 : (d.pop_back).2 = d := by
      unfold Dequeue.pop_back
      rw [if_pos hne]
    have h3 : d.toList = [] := by
      unfold toList
      rw [hne]
      rfl
    rw [h2, h3]
    rfl
  · apply toList_eq (h.pop_back)
    intro i
    rw [get_pop_back h hne, List.getElem?_dropLast, toList_length h]
    by_cases hi : i < d.len - 1
    · rw [if_pos hi, if_pos hi, toList_getElem? h]
    · rw [if_neg hi, if_neg hi]

/-- The value returned by `pop_back` is the last of the logical list. -/
theorem pop_back_fst_toList {d : Dequeue α N} (h : d.Inv) :
    (d.pop_back).1 = d.toList.getLast? := by
  by_cases hne : d.len = 0
  · have h2 : (d.pop_back).1 = none := by
      unfold Dequeue.pop_back
      rw [if_pos hne]
    have h3 : d.toList = [] := by
      unfold toList
      rw [hne]
      rfl
    rw [h2, h3]
    rfl
  · rw [pop_back_fst hne, List.getLast?_eq_getElem?, toList_getElem? h,
      toList_length h]

/-- `toList` after a successful `push_back` appends the new element. -/
theorem toList_push_back {d : Dequeue α N} (h : d.Inv) (hlt : d.len < N)
    (x : α) : ((d.push_back x).1).toList = d.toList ++ [x] := by
  have hinv := h.push_back (x := x)
  apply toList_eq hinv
  intro i
  rw [get_push_back h hlt]
  by_cases hi : i < d.len
  · rw [if_pos hi, List.getElem?_append_left (by rw [toList_length h]; omega),
      toList_getElem? h]
  · by_cases hieq : i = d.len
    · subst hieq
      rw [if_neg (by omega), if_pos rfl]
      have : d.len = d.toList.length := (toList_length h).symm
      rw [this, List.getElem?_concat_length]
    · rw [if_neg (by omega), if_neg (by omega),
        List.getElem?_eq_none (by rw [List.length_append, toList_length h]; simp; omega)]

/-- The logical-to-physical index map is surjective on a full buffer. -/
theorem phys_surj {N s j : Nat} (hs : s < N) (hj : j < N) :
    ∃ i, i < N ∧ (s + i) % N = j := by
  by_cases hle : s ≤ j
  · refine ⟨j - s, by omega, ?_⟩
    have : s + (j - s) = j := by omega
    rw [this, Nat.mod_eq_of_lt hj]
  · refine ⟨N + j - s, by omega, ?_⟩
    have : s + (N + j - s) = N + j := by omega
    rw [this, Nat.add_mod_left, Nat.mod_eq_of_lt hj]

/-- When not full, `push_back_overwrite` is exactly a successful
`push_back`. -/
theorem push_back_overwrite_eq {d : Dequeue α N} (hne : d.len ≠ N) (x : α) :
    d.push_back_overwrite x = (d.push_back x).1 := by
  unfold push_back_overwrite push_back
  rw [if_neg hne, if_neg hne]

/-- When not full, `push_front_overwrite` is exactly a successful
`push_front`. -/
theorem push_front_overwrite_eq {d : Dequeue α N} (hne : d.len ≠ N) (x : α) :
    d.push_front_overwrite x = (d.push_front x).1 := by
  unfold push_front_overwrite push_front
  rw [if_neg hne, if_neg hne]

/-- `get` after `push_back_overwrite` on a full buffer: contents shifted
down by one with the new element at the logical back. -/
theorem get_push_back_overwrite_full {d : Dequeue α N} (h : d.Inv)
    (hfull : d.len = N) (x : α) (i : Nat) :
    (d.push_back_overwrite x).get i =
      if i < N - 1 then d.get (i + 1)
      else if i = N - 1 then some x else none := by
  have hd := h.data_length
  have hs := h.start_lt
  have hN := h.pos
  have hdat : (d.push_back_overwrite x).data =
      d.data.set (wrapAdd N d.start 0) (some x) := by
    unfold push_back_overwrite overwriteAt
    rw [if_pos hfull]
  have hlen : (d.push_back_overwrite x).len = d.len := by
    unfold push_back_overwrite overwriteAt
    rw [if_pos hfull]
  have hst : (d.push_back_overwrite x).start = wrapInc N d.start := by
    unfold push_back_overwrite overwriteAt
    rw [if_pos hfull]
  have hw0 : wrapAdd N d.start 0 = d.start := by
    rw [wrapAdd_eq_mod hs (by omega), Nat.add_zero, Nat.mod_eq_of_lt hs]
  have hinclt : wrapInc N d.start < N := wrapInc_lt hs
  have hshift : ∀ k, (wrapInc N d.start + k) % N = (d.start + (k + 1)) % N := by
    intro k
    rw [wrapInc_eq_mod hs, Nat.mod_add_mod]
    congr 1
    omega
  have hzero : (d.start + 0) % N = d.start := by
    rw [Nat.add_zero]
    exact Nat.mod_eq_of_lt hs
  unfold get readAt
  rw [hlen, hst, hfull]
  by_cases hi : i < N - 1
  · rw [if_pos (by omega), if_pos hi,
      slotAt_of_data (l := d.data) (by rw [hdat, hw0]) _,
      wrapAdd_eq_mod hinclt (by omega), hshift i,
      if_neg (by
        rintro ⟨heq, -⟩
        have h2 : (d.start + 0) % N = (d.start + (i + 1)) % N := by
          rw [hzero]
          exact heq
        exact absurd (add_mod_inj (by omega) (by omega) h2) (by omega))]
    rw [if_pos (by omega), wrapAdd_eq_mod hs (by omega)]
    rfl
  · by_cases hieq : i = N - 1
    · subst hieq
      rw [if_pos (by omega), if_neg (by omega), if_pos rfl,
        slotAt_of_data (l := d.data) (by rw [hdat, hw0]) _,
        wrapAdd_eq_mod hinclt (by omega), hshift (N - 1)]
      have harith : (d.start + (N - 1 + 1)) % N = d.start := by
        have : d.start + (N - 1 + 1) = N + d.start := by omega
        rw [this, Nat.add_mod_left, Nat.mod_eq_of_lt hs]
      rw [harith, if_pos ⟨rfl, by omega⟩]
    · rw [if_neg (by omega), if_neg hi, if_neg hieq]

/-- `push_back_overwrite` preserves the representation invariant. -/
theorem Inv.push_back_overwrite {d : Dequeue α N} (h : d.Inv) (x : α) :
    (d.push_back_overwrite x).Inv := by
  by_cases hfull : d.len = N
  · have hd := h.data_length
    have hs := h.start_lt
    have hN := h.pos
    have hdat : (d.push_back_overwrite x).data =
        d.data.set (wrapAdd N d.start 0) (some x) := by
      unfold Dequeue.push_back_overwrite overwriteAt
      rw [if_pos hfull]
    have hlen : (d.push_back_overwrite x).len = d.len := by
      unfold Dequeue.push_back_overwrite overwriteAt
      rw [if_pos hfull]
    have hst : (d.push_back_overwrite x).start = wrapInc N d.start := by
      unfold Dequeue.push_back_overwrite overwriteAt
      rw [if_pos hfull]
    have hw0 : wrapAdd N d.start 0 = d.start := by
      rw [wrapAdd_eq_mod hs (by omega), Nat.add_zero, Nat.mod_eq_of_lt hs]
    have hinclt : wrapInc N d.start < N := wrapInc_lt hs
    have hshift : ∀ k, (wrapInc N d.start + k) % N = (d.start + (k + 1)) % N := by
      intro k
      rw [wrapInc_eq_mod hs, Nat.mod_add_mod]
      congr 1
      omega
    have hzero : (d.start + 0) % N = d.start := by
      rw [Nat.add_zero]
      exact Nat.mod_eq_of_lt hs
    have hslot : ∀ j, (d.push_back_overwrite x).slotAt j =
        if d.start = j ∧ d.start < d.data.length then some x else d.slotAt j := by
      intro j
      rw [slotAt_of_data (l := d.data) (by rw [hdat, hw0]) j]
      rfl
    refine ⟨by rw [hdat, List.length_set, hd], by rw [hlen]; exact h.len_le,
      by rw [hst]; omega, ?_, ?_⟩
    · intro i hi
      rw [hlen, hfull] at hi
      rw [hst, hslot, hshift i]
      by_cases hi' : i < N - 1
      · rw [if_neg (by
          rintro ⟨heq, -⟩
          have h2 : (d.start + 0) % N = (d.start + (i + 1)) % N := by
            rw [hzero]
            exact heq
          exact absurd (add_mod_inj (by omega) (by omega) h2) (by omega))]
        exact h.occupied (i + 1) (by omega)
      · have : i = N - 1 := by omega
        subst this
        have harith : (d.start + (N - 1 + 1)) % N = d.start := by
          have : d.start + (N - 1 + 1) = N + d.start := by omega
          rw [this, Nat.add_mod_left, Nat.mod_eq_of_lt hs]
        rw [harith, if_pos ⟨rfl, by omega⟩]
        rfl
    · intro j hj hall
      rw [hlen, hfull] at hall
      rw [hst] at hall
      obtain ⟨i0, hi0, hphys⟩ := phys_surj hinclt hj
      exact absurd hphys (hall i0 hi0)
  · rw [push_back_overwrite_eq hfull]
    exact h.push_back x

/-- `toList` after `push_back_overwrite` on a full buffer: the oldest
element is evicted and the new one appended. -/
theorem toList_push_back_overwrite_full {d : Dequeue α N} (h : d.Inv)
    (hfull : d.len = N) (x : α) :
    (d.push_back_overwrite x).toList = d.toList.tail ++ [x] := by
  have hN := h.pos
  apply toList_eq (h.push_back_overwrite x)
  intro i
  rw [get_push_back_overwrite_full h hfull, ← List.drop_one]
  have hlen : d.toList.length = N := by rw [toList_length h, hfull]
  by_cases hi : i < N - 1
  · rw [if_pos hi,
      List.getElem?_append_left (by rw [List.length_drop, hlen]; omega),
      List.getElem?_drop, toList_getElem? h, Nat.add_comm]
  · by_cases hieq : i = N - 1
    · subst hieq
      rw [if_neg (by omega), if_pos rfl]
      have : N - 1 = (d.toList.drop 1).length := by
        rw [List.length_drop, hlen]
      rw [this, List.getElem?_concat_length]
    · rw [if_neg (by omega), if_neg hieq, List.getElem?_eq_none
        (by rw [List.length_append, List.length_drop, hlen]; simp; omega)]

/-- `get` after `push_front_overwrite` on a full buffer: the new element
at the front, remaining contents shifted up, the old back evicted. -/
theorem get_push_front_overwrite_full {d : Dequeue α N} (h : d.Inv)
    (hfull : d.len = N) (x : α) (i : Nat) :
    (d.push_front_overwrite x).get i =
      if i = 0 then some x
      else if i < N then d.get (i - 1) else none := by
  have hd := h.data_length
  have hs := h.start_lt
  have hN := h.pos
  have hs' : wrapDec N d.start < N := wrapDec_lt hs
  have hdec : wrapDec N d.start = (d.start + (N - 1)) % N := wrapDec_eq_mod hs
  have hdat : (d.push_front_overwrite x).data =
      d.data.set (wrapAdd N (wrapDec N d.start) 0) (some x) := by
    unfold push_front_overwrite overwriteAt
    rw [if_pos hfull]
  have hlen : (d.push_front_overwrite x).len = d.len := by
    unfold push_front_overwrite overwriteAt
    rw [if_pos hfull]
  have hst : (d.push_front_overwrite x).start = wrapDec N d.start := by
    unfold push_front_overwrite overwriteAt
    rw [if_pos hfull]
  have hw0 : wrapAdd N (wrapDec N d.start) 0 = wrapDec N d.start := by
    rw [wrapAdd_eq_mod hs' (by omega), Nat.add_zero, Nat.mod_eq_of_lt hs']
  have hself : (wrapDec N d.start + 0) % N = wrapDec N d.start := by
    rw [Nat.add_zero, Nat.mod_eq_of_lt hs']
  have hshift : ∀ k, (wrapDec N d.start + (k + 1)) % N = (d.start + k) % N := by
    intro k
    rw [hdec, Nat.mod_add_mod]
    have : d.start + (N - 1) + (k + 1) = d.start + k + N := by omega
    rw [this, Nat.add_mod_right]
  unfold get readAt
  rw [hlen, hst, hfull]
  by_cases hi0 : i = 0
  · subst hi0
    rw [if_pos (by omega), if_pos rfl,
      slotAt_of_data (l := d.data) (by rw [hdat]) _, hw0,
      if_pos ⟨rfl, by rw [hd]; exact hs'⟩]
  · by_cases hi : i < N
    · obtain ⟨k, rfl⟩ : ∃ k, i = k + 1 := ⟨i - 1, by omega⟩
      rw [if_pos hi, if_neg hi0, if_pos hi,
        slotAt_of_data (l := d.data) (by rw [hdat]) _, hw0,
        wrapAdd_eq_mod hs' (by omega), hshift k,
        if_neg (by
          rintro ⟨heq, -⟩
          rw [hdec] at heq
          exact absurd (add_mod_inj (by omega) (by omega) heq) (by omega)),
        Nat.add_sub_cancel]
      rw [if_pos (by omega), wrapAdd_eq_mod hs (by omega)]
      rfl
    · rw [if_neg hi, if_neg hi0, if_neg hi]

/-- `push_front_overwrite` preserves the representation invariant. -/
theorem Inv.push_front_overwrite {d : Dequeue α N} (h : d.Inv) (x : α) :
    (d.push_front_overwrite x).Inv := by
  by_cases hfull : d.len = N
  · have hd := h.data_length
    have hs := h.start_lt
    have hN := h.pos
    have hs' : wrapDec N d.start < N := wrapDec_lt hs
    have hdec : wrapDec N d.start = (d.start + (N - 1)) % N := wrapDec_eq_mod hs
    have hdat : (d.push_front_overwrite x).data =
        d.data.set (wrapAdd N (wrapDec N d.start) 0) (some x) := by
      unfold Dequeue.push_front_overwrite overwriteAt
      rw [if_pos hfull]
    have hlen : (d.push_front_overwrite x).len = d.len := by
      unfold Dequeue.push_front_overwrite overwriteAt
      rw [if_pos hfull]
    have hst : (d.push_front_overwrite x).start = wrapDec N d.start := by
      unfold Dequeue.push_front_overwrite overwriteAt
      rw [if_pos hfull]
    have hw0 : wrapAdd N (wrapDec N d.start) 0 = wrapDec N d.start := by
      rw [wrapAdd_eq_mod hs' (by omega), Nat.add_zero, Nat.mod_eq_of_lt hs']
    have hself : (wrapDec N d.start + 0) % N = wrapDec N d.start := by
      rw [Nat.add_zero, Nat.mod_eq_of_lt hs']
    have hshift : ∀ k, (wrapDec N d.start + (k + 1)) % N = (d.start + k) % N := by
      intro k
      rw [hdec, Nat.mod_add_mod]
      have : d.start + (N - 1) + (k + 1) = d.start + k + N := by omega
      rw [this, Nat.add_mod_right]
    have hslot : ∀ j, (d.push_front_overwrite x).slotAt j =
        if wrapDec N d.start = j ∧ wrapDec N d.start < d.data.length
        then some x else d.slotAt j := by
      intro j
      rw [slotAt_of_data (l := d.data) (by rw [hdat, hw0]) j]
      rfl
    refine ⟨by rw [hdat, List.length_set, hd], by rw [hlen]; exact h.len_le,
      by rw [hst]; omega, ?_, ?_⟩
    · intro i hi
      rw [hlen, hfull] at hi
      rw [hst, hslot]
      by_cases hi0 : i = 0
      · subst hi0
        rw [hself, if_pos ⟨rfl, by omega⟩]
        rfl
      · obtain ⟨k, rfl⟩ : ∃ k, i = k + 1 := ⟨i - 1, by omega⟩
        rw [hshift k, if_neg (by
          rintro ⟨heq, -⟩
          rw [hdec] at heq
          exact absurd (add_mod_inj (by omega) (by omega) heq) (by omega))]
        exact h.occupied k (by omega)
    · intro j hj hall
      rw [hlen, hfull] at hall
      rw [hst] at hall
      obtain ⟨i0, hi0, hphys⟩ := phys_surj hs' hj
      exact absurd hphys (hall i0 hi0)
  · rw [push_front_overwrite_eq hfull]
    exact h.push_front x

/-- `toList` after `push_front_overwrite` on a full buffer: the newest
element is evicted and the new one prepended. -/
theorem toList_push_front_overwrite_full {d : Dequeue α N} (h : d.Inv)
    (hfull : d.len = N) (x : α) :
    (d.push_front_overwrite x).toList = x :: d.toList.dropLast := by
  have hN := h.pos
  apply toList_eq (h.push_front_overwrite x)
  intro i
  rw [get_push_front_overwrite_full h hfull]
  have hlen : d.toList.length = N := by rw [toList_length h, hfull]
  cases i with
  | zero =>
    rw [if_pos rfl]
    simp
  | succ k =>
    rw [if_neg (by omega), List.getElem?_cons_succ, List.getElem?_dropLast,
      hlen, Nat.add_sub_cancel]
    by_cases hk : k < N - 1
    · rw [if_pos (by omega), if_pos hk, toList_getElem? h]
    · rw [if_neg (by omega), if_neg hk]

/-- A fresh buffer satisfies the representation invariant. -/
theorem Inv.new {N : Nat} (α : Type) (hN : 0 < N) : (new α N).Inv := by
  refine ⟨List.length_replicate _ _, Nat.zero_le N, hN, ?_, ?_⟩
  · intro i hi
    have hz : (Dequeue.new α N).len = 0 := rfl
    omega
  · intro j hj _
    show ((List.replicate N (none : Option α))[j]?).join = none
    rw [List.getElem?_replicate_of_lt hj]
    rfl

/-- A buffer of zero logical length abstracts to the empty list. -/
theorem toList_of_len_zero {d : Dequeue α N} (hz : d.len = 0) :
    d.toList = [] := by
  unfold toList
  rw [hz]
  rfl

theorem toList_new : (new α N).toList = [] := toList_of_len_zero rfl

theorem clear_len (d : Dequeue α N) : (d.clear).len = 0 := by
  unfold clear
  by_cases hne : d.len = 0
  · rw [if_pos hne]
    exact hne
  · rw [if_neg hne]

theorem toList_clear (d : Dequeue α N) : (d.clear).toList = [] :=
  toList_of_len_zero (clear_len d)

theorem vacateFrom_length :
    ∀ (k : Nat) (l : List (Option α)) (a : Nat),
      (vacateFrom l a k).length = l.length
  | 0, _, _ => rfl
  | k + 1, l, a => by
    rw [vacateFrom, vacateFrom_length k, List.length_set]

theorem vacateFrom_getElem? :
    ∀ (k : Nat) (l : List (Option α)) (a j : Nat),
      (vacateFrom l a k)[j]? =
        if a ≤ j ∧ j < a + k ∧ j < l.length then some none else l[j]?
  | 0, l, a, j => by
    rw [vacateFrom, if_neg (by omega)]
  | k + 1, l, a, j => by
    rw [vacateFrom, vacateFrom_getElem? k (l.set a none) (a + 1) j,
      List.length_set]
    by_cases hin : a + 1 ≤ j ∧ j < a + 1 + k ∧ j < l.length
    · rw [if_pos hin, if_pos (by omega)]
    · rw [if_neg hin]
      by_cases haj : a = j
      · subst haj
        rw [List.getElem?_set, if_pos rfl]
        by_cases hal : a < l.length
        · rw [if_pos hal, if_pos ⟨Nat.le_refl a, by omega, hal⟩]
        · rw [if_neg hal, if_neg (by omega),
            List.getElem?_eq_none (by omega)]
      · rw [List.getElem?_set, if_neg haj, if_neg (by omega)]

/-- After a non-trivial `clear`, every slot is vacant. -/
theorem slotAt_clear {d : Dequeue α N} (h : d.Inv) (j : Nat) (hj : j < N) :
    (d.clear).slotAt j = none := by
  have hd := h.data_length
  have hs := h.start_lt
  have hl := h.len_le
  have hN := h.pos
  by_cases hne : d.len = 0
  · have hclr : d.clear = d := by
      unfold clear
      rw [if_pos hne]
    rw [hclr]
    exact h.vacant j hj (fun i hi => by omega)
  · have hclr : d.clear =
        (⟨if d.start ≤ wrapAdd N d.start (d.len - 1) then
            vacateFrom d.data d.start (wrapAdd N d.start (d.len - 1) + 1 - d.start)
          else
            vacateFrom (vacateFrom d.data d.start (N - d.start)) 0
              (wrapAdd N d.start (d.len - 1) + 1), 0, 0⟩ : Dequeue α N) := by
      unfold clear
      rw [if_neg hne]
    have hlp : wrapAdd N d.start (d.len - 1) = (d.start + (d.len - 1)) % N :=
      wrapAdd_eq_mod hs (by omega)
    rw [hclr]
    unfold slotAt
    by_cases hcase : d.start + (d.len - 1) < N
    · have hval : wrapAdd N d.start (d.len - 1) = d.start + (d.len - 1) := by
        rw [hlp, Nat.mod_eq_of_lt hcase]
      rw [hval]
      simp only [if_pos (show d.start ≤ d.start + (d.len - 1) by omega)]
      rw [vacateFrom_getElem?]
      by_cases hjin : d.start ≤ j ∧ j < d.start + d.len
      · rw [if_pos ⟨hjin.1, by omega, by omega⟩]
        rfl
      · rw [if_neg (by omega)]
        refine h.vacant j hj (fun i hi heq => ?_)
        rw [Nat.mod_eq_of_lt (by omega)] at heq
        omega
    · have hval : wrapAdd N d.start (d.len - 1) = d.start + (d.len - 1) - N := by
        rw [hlp, Nat.mod_eq_sub_mod (by omega), Nat.mod_eq_of_lt (by omega)]
      rw [hval]
      simp only [if_neg (show ¬d.start ≤ d.start + (d.len - 1) - N by omega)]
      rw [vacateFrom_getElem?, vacateFrom_length, vacateFrom_getElem?]
      by_cases hjlow : j < d.start + (d.len - 1) - N + 1
      · rw [if_pos ⟨by omega, by omega, by omega⟩]
        rfl
      · rw [if_neg (by omega)]
        by_cases hjhigh : d.start ≤ j
        · rw [if_pos ⟨hjhigh, by omega, by omega⟩]
          rfl
        · rw [if_neg (by omega)]
          refine h.vacant j hj (fun i hi heq => ?_)
          by_cases hwrap : d.start + i < N
          · rw [Nat.mod_eq_of_lt hwrap] at heq
            omega
          · rw [Nat.mod_eq_sub_mod (by omega),
              Nat.mod_eq_of_lt (by omega)] at heq
            omega

/-- `clear` preserves the representation invariant. -/
theorem Inv.clear {d : Dequeue α N} (h : d.Inv) : (d.clear).Inv := by
  by_cases hne : d.len = 0
  · have hclr : d.clear = d := by
      unfold Dequeue.clear
      rw [if_pos hne]
    rw [hclr]
    exact h
  · have hdata : (d.clear).data.length = N := by
      unfold Dequeue.clear
      rw [if_neg hne]
      by_cases hbr : d.start ≤ wrapAdd N d.start (d.len - 1)
      · simp only [if_pos hbr]
        rw [vacateFrom_length]
        exact h.data_length
      · simp only [if_neg hbr]
        rw [vacateFrom_length, vacateFrom_length]
        exact h.data_length
    have hstart : (d.clear).start = 0 := by
      unfold Dequeue.clear
      rw [if_neg hne]
    have hlen := clear_len d
    refine ⟨hdata, by omega, by rw [hstart]; exact h.pos, by omega, ?_⟩
    intro j hj _
    exact slotAt_clear h j hj

/-- The concatenated `slices` index the logical contents, slot by slot. -/
theorem slices_getElem? {d : Dequeue α N} (h : d.Inv) (hne : d.len ≠ 0)
    (i : Nat) (hi : i < d.len) :
    ((d.slices).1 ++ (d.slices).2)[i]? = d.data[(d.start + i) % N]? := by
  have hd := h.data_length
  have hs := h.start_lt
  have hl := h.len_le
  have hN := h.pos
  have hlp : wrapAdd N d.start (d.len - 1) = (d.start + (d.len - 1)) % N :=
    wrapAdd_eq_mod hs (by omega)
  by_cases hcase : d.start + (d.len - 1) < N
  · have hval : wrapAdd N d.start (d.len - 1) = d.start + (d.len - 1) := by
      rw [hlp, Nat.mod_eq_of_lt hcase]
    have hsl : d.slices =
        ((d.data.drop d.start).take (d.start + (d.len - 1) + 1 - d.start), []) := by
      unfold slices
      rw [if_neg hne, hval]
      simp only [if_pos (show d.start ≤ d.start + (d.len - 1) by omega)]
    rw [hsl, List.append_nil, List.getElem?_take_of_lt (by omega),
      List.getElem?_drop, Nat.mod_eq_of_lt (by omega)]
  · have hval : wrapAdd N d.start (d.len - 1) = d.start + (d.len - 1) - N := by
      rw [hlp, Nat.mod_eq_sub_mod (by omega), Nat.mod_eq_of_lt (by omega)]
    have hsl : d.slices =
        (d.data.drop d.start, d.data.take (d.start + (d.len - 1) - N + 1)) := by
      unfold slices
      rw [if_neg hne, hval]
      simp only [if_neg (show ¬d.start ≤ d.start + (d.len - 1) - N by omega)]
    rw [hsl]
    by_cases hlow : i < N - d.start
    · rw [List.getElem?_append_left (by rw [List.length_drop, hd]; omega),
        List.getElem?_drop, Nat.mod_eq_of_lt (by omega)]
    · rw [List.getElem?_append_right (by rw [List.length_drop, hd]; omega),
        List.length_drop, hd,
        List.getElem?_take_of_lt (by omega),
        Nat.mod_eq_sub_mod (by omega), Nat.mod_eq_of_lt (by omega)]
      congr 1
      omega

theorem slices_length {d : Dequeue α N} (h : d.Inv) (hne : d.len ≠ 0) :
    ((d.slices).1 ++ (d.slices).2).length = d.len := by
  have hd := h.data_length
  have hs := h.start_lt
  have hl := h.len_le
  have hN := h.pos
  have hlp : wrapAdd N d.start (d.len - 1) = (d.start + (d.len - 1)) % N :=
    wrapAdd_eq_mod hs (by omega)
  by_cases hcase : d.start + (d.len - 1) < N
  · have hval : wrapAdd N d.start (d.len - 1) = d.start + (d.len - 1) := by
      rw [hlp, Nat.mod_eq_of_lt hcase]
    have hsl : d.slices =
        ((d.data.drop d.start).take (d.start + (d.len - 1) + 1 - d.start), []) := by
      unfold slices
      rw [if_neg hne, hval]
      simp only [if_pos (show d.start ≤ d.start + (d.len - 1) by omega)]
    rw [hsl, List.append_nil, List.length_take, List.length_drop, hd]
    omega
  · have hval : wrapAdd N d.start (d.len - 1) = d.start + (d.len - 1) - N := by
      rw [hlp, Nat.mod_eq_sub_mod (by omega), Nat.mod_eq_of_lt (by omega)]
    have hsl : d.slices =
        (d.data.drop d.start, d.data.take (d.start + (d.len - 1) - N + 1)) := by
      unfold slices
      rw [if_neg hne, hval]
      simp only [if_neg (show ¬d.start ≤ d.start + (d.len - 1) - N by omega)]
    rw [hsl, List.length_append, List.length_drop, List.length_take, hd]
    omega

/-- `get` is unchanged by `clone`. -/
theorem get_clone {d : Dequeue α N} (h : d.Inv) (i : Nat) :
    (d.clone).get i = d.get i := by
  have hd := h.data_length
  have hs := h.start_lt
  have hl := h.len_le
  have hN := h.pos
  have hdata : (d.clone).data =
      (((d.slices).1 ++ (d.slices).2) ++ List.replicate N none).take N := rfl
  have hstart : (d.clone).start = 0 := rfl
  have hlen : (d.clone).len = d.len := rfl
  by_cases hne : d.len = 0
  · unfold get
    rw [hlen]
    rw [if_neg (by omega), if_neg (by omega)]
  · unfold get
    rw [hlen]
    by_cases hi : i < d.len
    · rw [if_pos hi, if_pos hi]
      unfold readAt slotAt
      rw [hstart, hdata]
      have hwc : wrapAdd N (0 : Nat) i = i := by
        rw [wrapAdd_eq_mod (by omega) (by omega), Nat.zero_add,
          Nat.mod_eq_of_lt (by omega)]
      have hlen12 := slices_length h hne
      rw [hwc, List.getElem?_take_of_lt (by omega),
        List.getElem?_append_left (by omega), slices_getElem? h hne i hi,
        wrapAdd_eq_mod hs (by omega)]
    · rw [if_neg hi, if_neg hi]

/-- `clone` preserves the representation invariant. -/
theorem Inv.clone {d : Dequeue α N} (h : d.Inv) : (d.clone).Inv := by
  have hd := h.data_length
  have hs := h.start_lt
  have hl := h.len_le
  have hN := h.pos
  have hdata : (d.clone).data =
      (((d.slices).1 ++ (d.slices).2) ++ List.replicate N none).take N := rfl
  have hstart : (d.clone).start = 0 := rfl
  have hlen : (d.clone).len = d.len := rfl
  have hslot : ∀ j < N, (d.clone).slotAt j =
      ((((d.slices).1 ++ (d.slices).2) ++ List.replicate N none)[j]?).join := by
    intro j hj
    unfold slotAt
    rw [hdata, List.getElem?_take_of_lt hj]
  have hlength : (d.clone).data.length = N := by
    rw [hdata, List.length_take, List.length_append, List.length_replicate]
    omega
  by_cases hne : d.len = 0
  · refine ⟨hlength, by omega, by omega, by omega, ?_⟩
    intro j hj _
    rw [hslot j hj]
    have hsl : d.slices = ([], []) := by
      unfold slices
      rw [if_pos hne]
    rw [hsl]
    simp only [List.append_nil, List.nil_append]
    rw [List.getElem?_replicate_of_lt hj]
    rfl
  · have h12 := slices_length h hne
    refine ⟨hlength, by omega, by omega, ?_, ?_⟩
    · intro i hi
      rw [hlen] at hi
      rw [hstart, Nat.zero_add, Nat.mod_eq_of_lt (by omega), hslot i (by omega),
        List.getElem?_append_left (by omega), slices_getElem? h hne i hi]
      have := h.occupied i hi
      unfold slotAt at this
      exact this
    · intro j hj hall
      rw [hlen, hstart] at hall
      have hjge : d.len ≤ j := by
        by_contra hcon
        exact hall j (by omega) (by rw [Nat.zero_add, Nat.mod_eq_of_lt (by omega)])
      rw [hslot j hj, List.getElem?_append_right (by omega), h12,
        List.getElem?_replicate_of_lt (by omega)]
      rfl

/-- Fueled drain loop, the shape of the source's
`while let Some(item) = queue.pop_front()` loops; `q.len` is enough fuel
(proved below). -/
def popAllFuel : Nat → Dequeue α N → List α
  | 0, _ => []
  | fuel + 1, q =>
    match q.pop_front with
    | (none, _) => []
    | (some a, q') => a :: popAllFuel fuel q'

/-- Drain the whole buffer front-to-back. -/
def popAll (q : Dequeue α N) : List α := popAllFuel q.len q

/-- Pop `k` elements off the front, as in
`(0..k).map(|_| queue.pop_front().expect(..)).collect()`; the `expect`
panic is unreachable at every call site (`k` never exceeds the length
there), so exhaustion just stops the loop. -/
def popK : Nat → Dequeue α N → List α × Dequeue α N
  | 0, q => ([], q)
  | k + 1, q =>
    match q.pop_front with
    | (some a, q') =>
      let r := popK k q'
      (a :: r.1, r.2)
    | (none, q') => ([], q')

theorem pop_front_snd_len {q : Dequeue α N} (hne : q.len ≠ 0) :
    ((q.pop_front).2).len = q.len - 1 := by
  unfold pop_front takeAt
  rw [if_neg hne]

theorem pop_front_of_empty {q : Dequeue α N} (hz : q.len = 0) :
    q.pop_front = (none, q) := by
  unfold pop_front
  rw [if_pos hz]

theorem popAllFuel_eq_toList :
    ∀ (fuel : Nat) (q : Dequeue α N), q.Inv → q.len ≤ fuel →
      popAllFuel fuel q = q.toList
  | 0, q, _, hle => by
    rw [popAllFuel, toList_of_len_zero (by omega)]
  | fuel + 1, q, h, hle => by
    rw [popAllFuel]
    by_cases hne : q.len = 0
    · rw [pop_front_of_empty hne, toList_of_len_zero hne]
    · have h1 : (q.pop_front).1 = q.toList.head? := pop_front_fst_toList h
      have h2 : (q.pop_front).2.toList = q.toList.tail := toList_pop_front h
      have hinv : (q.pop_front).2.Inv := h.pop_front
      have hlen' : ((q.pop_front).2).len = q.len - 1 := pop_front_snd_len hne
      have hlnil : q.toList ≠ [] := by
        intro hc
        have := toList_length h
        rw [hc] at this
        simp at this
        omega
      obtain ⟨a, t, hat⟩ : ∃ a t, q.toList = a :: t := by
        cases hc : q.toList with
        | nil => exact absurd hc hlnil
        | cons a t => exact ⟨a, t, rfl⟩
      have hpair : q.pop_front = (some a, (q.pop_front).2) := by
        refine Prod.ext ?_ rfl
        rw [h1, hat]
        rfl
      rw [hpair]
      show a :: popAllFuel fuel ((q.pop_front).2) = q.toList
      rw [popAllFuel_eq_toList fuel _ hinv (by omega), h2, hat]
      rfl

/-- Draining the whole buffer yields the logical contents in order. -/
theorem popAll_eq_toList {q : Dequeue α N} (h : q.Inv) :
    q.popAll = q.toList :=
  popAllFuel_eq_toList q.len q h (Nat.le_refl _)

/-- Specification of `popK`: it returns the first `k` logical elements
and leaves the rest, preserving the invariant. -/
theorem popK_spec :
    ∀ (k : Nat) (q : Dequeue α N), q.Inv → k ≤ q.len →
      (popK k q).1 = q.toList.take k ∧ ((popK k q).2).Inv ∧
        ((popK k q).2).toList = q.toList.drop k ∧
        ((popK k q).2).len = q.len - k
  | 0, q, h, _ => by
    refine ⟨by rw [popK]; rfl, ?_, ?_, ?_⟩
    · rw [popK]
      exact h
    · rw [popK, List.drop_zero]
    · rw [popK]
      show q.len = q.len - 0
      omega
  | k + 1, q, h, hle => by
    have hne : q.len ≠ 0 := by omega
    have h1 : (q.pop_front).1 = q.toList.head? := pop_front_fst_toList h
    have h2 : (q.pop_front).2.toList = q.toList.tail := toList_pop_front h
    have hinv : (q.pop_front).2.Inv := h.pop_front
    have hlen' : ((q.pop_front).2).len = q.len - 1 := pop_front_snd_len hne
    have hlnil : q.toList ≠ [] := by
      intro hc
      have := toList_length h
      rw [hc] at this
      simp at this
      omega
    obtain ⟨a, t, hat⟩ : ∃ a t, q.toList = a :: t := by
      cases hc : q.toList with
      | nil => exact absurd hc hlnil
      | cons a t => exact ⟨a, t, rfl⟩
    have hpair : q.pop_front = (some a, (q.pop_front).2) := by
      refine Prod.ext ?_ rfl
      rw [h1, hat]
      rfl
    obtain ⟨ih1, ih2, ih3, ih4⟩ :=
      popK_spec k ((q.pop_front).2) hinv (by omega)
    have hred : popK (k + 1) q =
        (a :: (popK k ((q.pop_front).2)).1, (popK k ((q.pop_front).2)).2) := by
      rw [popK, hpair]
    refine ⟨?_, ?_, ?_, ?_⟩
    · rw [hred]
      show a :: (popK k ((q.pop_front).2)).1 = q.toList.take (k + 1)
      rw [ih1, h2, hat]
      rfl
    · rw [hred]
      exact ih2
    · rw [hred]
      show (popK k ((q.pop_front).2)).2.toList = q.toList.drop (k + 1)
      rw [ih3, h2, hat]
      rfl
    · rw [hred]
      show (popK k ((q.pop_front).2)).2.len = q.len - (k + 1)
      omega

end Dequeue

/-- Model of `BPeekN<I, N>`: the remaining output of the wrapped iterator
(`inner`), and the lookahead ring buffer (`queue`). -/
structure BPeekN (α : Type) (N : Nat) where
  inner : List α
  queue : Dequeue α N
deriving DecidableEq

namespace BPeekN

variable {α β : Type} {N : Nat}

/-- Model of `BPeekExt::bpeekable`: wrap an iterator with an empty
lookahead buffer. -/
def bpeekable (l : List α) (N : Nat) : BPeekN α N :=
  ⟨l, Dequeue.new α N⟩

/-- The unbuffered view of the adapter: the buffered prefix followed by
the remaining source output.  All bulk operations are compared against
applying the raw list operation to this. -/
def elems (b : BPeekN α N) : List α :=
  b.queue.toList ++ b.inner

/-- Model of `Iterator::next for BPeekN`: the buffer front when the
buffer is non-empty, else a pull from the source. -/
def next (b : BPeekN α N) : Option α × BPeekN α N :=
  match b.queue.pop_front with
  | (some buffered, q') => (some buffered, ⟨b.inner, q'⟩)
  | (none, q') =>
    match b.inner with
    | [] => (none, ⟨[], q'⟩)
    | a :: rest => (some a, ⟨rest, q'⟩)

/-- Model of `size_hint for BPeekN`: the buffered count added to both
ends of the source's hint.  The source list iterator's own hint is exact:
`(length, Some length)`. -/
def size_hint (b : BPeekN α N) : Nat × Option Nat :=
  let buffered := b.queue.len
  (buffered + b.inner.length, (some b.inner.length).map (fun v => buffered + v))

/-- Model of `count for BPeekN`: buffered count plus the source's count. -/
def count (b : BPeekN α N) : Nat :=
  b.queue.len + b.inner.length

/-- Model of `last for BPeekN`: the source's last element if any,
otherwise the buffer's back. -/
def last (b : BPeekN α N) : Option α :=
  match b.inner.getLast? with
  | some innerLast => some innerLast
  | none => (b.queue.pop_back).1

/-- The `for _ in 1..n`-style discard loop inside `nth for BPeekN`: pop
`k` times, panicking (`expect`) if the buffer runs dry. -/
def popDropE : Nat → Dequeue α N → Except Unit (Dequeue α N)
  | 0, q => .ok q
  | k + 1, q =>
    match q.pop_front with
    | (some _, q') => popDropE k q'
    | (none, _) => .error ()

/-- Model of `nth for BPeekN`.  When `n` exceeds the buffered count the
buffer is cleared and the source's native `nth` is used on the rest;
otherwise the buffer is popped `n - 1`-plus-one times, each pop guarded
by an `expect` (modeled as `Except.error`, a panic).  The source `nth n`
on a list yields element `n` and consumes `n + 1` elements. -/
def nth (b : BPeekN α N) (n : Nat) : Except Unit (Option α × BPeekN α N) :=
  if n > b.queue.len then
    .ok (b.inner[n - b.queue.len]?,
      ⟨b.inner.drop (n - b.queue.len + 1), b.queue.clear⟩)
  else
    match popDropE (n - 1) b.queue with
    | .error e => .error e
    | .ok q₁ =>
      match q₁.pop_front with
      | (none, _) => .error ()
      | (some a, q₂) => .ok (some a, ⟨b.inner, q₂⟩)

/-- Model of `for_each for BPeekN` as the trace of visited elements:
the buffer is drained front-to-back, then the source is visited. -/
def forEachTrace (b : BPeekN α N) : List α :=
  b.queue.popAll ++ b.inner

/-- Model of `fold for BPeekN`: fold the drained buffer into `init`,
then let the source fold the rest. -/
def fold (b : BPeekN α N) (init : β) (f : β → α → β) : β :=
  b.inner.foldl f ((b.queue.popAll).foldl f init)

/-- Reference `reduce` on a plain list (Rust's `Iterator::reduce`). -/
def listReduce (f : α → α → α) : List α → Option α
  | [] => none
  | a :: t => some (t.foldl f a)

/-- Model of `reduce for BPeekN`: seed from the buffer front when
available, fold the rest of the buffer, then fold the source; else defer
to the source's own `reduce`. -/
def reduce (b : BPeekN α N) (f : α → α → α) : Option α :=
  match b.queue.pop_front with
  | (some res, q') => some (b.inner.foldl f ((q'.popAll).foldl f res))
  | (none, _) => listReduce f b.inner

/-- Model of `all for BPeekN`: short-circuit over the drained buffer,
then the source's native `all`. -/
def all (b : BPeekN α N) (f : α → Bool) : Bool :=
  (b.queue.popAll).all f && b.inner.all f

/-- Model of `any for BPeekN`: short-circuit over the drained buffer,
then a short-circuiting scan of the whole source, then the source's
native `any` — by then the source is exhausted, so that final call scans
the empty remainder (the redundancy noted in the spec's design notes). -/
def any (b : BPeekN α N) (f : α → Bool) : Bool :=
  (b.queue.popAll).any f || (b.inner.any f || (([] : List α).any f))

/-- Model of `find for BPeekN`: search the drained buffer, then the
source. -/
def find (b : BPeekN α N) (p : α → Bool) : Option α :=
  match (b.queue.popAll).find? p with
  | some item => some item
  | none => b.inner.find? p

/-- Model of `find_map for BPeekN`: map-search the drained buffer, then
the source. -/
def find_map (b : BPeekN α N) (f : α → Option β) : Option β :=
  match (b.queue.popAll).findSome? f with
  | some res => some res
  | none => b.inner.findSome? f

/-- Model of `position for BPeekN`: count pops until the predicate hits;
falling through to the source adds the number of buffered elements
drained (`skipped`). -/
def position (b : BPeekN α N) (p : α → Bool) : Option Nat :=
  match (b.queue.popAll).findIdx? p with
  | some skipped => some skipped
  | none =>
    (b.inner.findIdx? p).map (fun posInner => (b.queue.popAll).length + posInner)

/-- Model of `DoubleEndedIterator::next_back for BPeekN`: the source's
back first, then the buffer's back. -/
def next_back (b : BPeekN α N) : Option α × BPeekN α N :=
  match b.inner.getLast? with
  | some innerItem => (some innerItem, ⟨b.inner.dropLast, b.queue⟩)
  | none =>
    let r := b.queue.pop_back
    (r.1, ⟨b.inner, r.2⟩)

/-- The run-scanning inner `while` of `partition for BPeekN`: starting at
queue index `i` (`additional` in the source), count consecutive elements
whose predicate value equals `result`; at the first mismatch cache
`Some(!result)` as `next_result`.  Reaching the end of the queue leaves
the cache empty.  Fuel `q.len` always suffices. -/
def scanRunFuel (f : α → Bool) (q : Dequeue α N) (result : Bool) :
    Nat → Nat → Nat × Option Bool
  | i, 0 => (i, none)
  | i, fuel + 1 =>
    match q.get i with
    | none => (i, none)
    | some v =>
      if f v == result then scanRunFuel f q result (i + 1) fuel
      else (i, some (!result))

/-- The drain-`while` of `partition for BPeekN`: pop a first element,
decide its partition (from the cache when a previous scan already
evaluated it), pop the rest of its run, extend the matching collection,
and repeat until the buffer is empty.  Fuel `q.len` always suffices. -/
def drainRunsFuel (f : α → Bool) :
    Nat → Dequeue α N → Option Bool → List α → List α →
      Dequeue α N × Option Bool × List α × List α
  | 0, q, cache, tc, fc => (q, cache, tc, fc)
  | fuel + 1, q, cache, tc, fc =>
    match q.pop_front with
    | (none, q₀) => (q₀, cache, tc, fc)
    | (some first, q') =>
      let result := match cache with
        | some r => r
        | none => f first
      let scan := scanRunFuel f q' result 0 q'.len
      let run := Dequeue.popK scan.1 q'
      if result then
        drainRunsFuel f fuel run.2 scan.2 (tc ++ first :: run.1) fc
      else
        drainRunsFuel f fuel run.2 scan.2 tc (fc ++ first :: run.1)

/-- The refill `for` loops of `partition for BPeekN`: move up to `k`
elements from the source to the buffer's back.  The
`push_back(..).assert()` panic is unreachable at both call sites (the
count never exceeds the free capacity, proved below). -/
def refill : Nat → List α × Dequeue α N → List α × Dequeue α N
  | 0, st => st
  | k + 1, (inner, q) =>
    match inner with
    | [] => ([], q)
    | a :: rest => refill k (rest, (q.push_back a).1)

/-- The outer `while !queue.is_empty()` of `partition for BPeekN`.  Fuel
`q.len + inner.length + 1` always suffices. -/
def partitionLoopFuel (f : α → Bool) :
    Nat → List α → Dequeue α N → Option Bool → List α → List α →
      List α × List α
  | 0, _, _, _, tc, fc => (tc, fc)
  | fuel + 1, inner, q, cache, tc, fc =>
    if q.is_empty then (tc, fc)
    else
      let dr := drainRunsFuel f q.len q cache tc fc
      let rf := refill N (inner, dr.1)
      partitionLoopFuel f fuel rf.1 rf.2 dr.2.1 dr.2.2.1 dr.2.2.2

/-- Model of `partition for BPeekN`: refill the buffer up to capacity,
then alternate full drains (in runs of equal predicate value) with
refills of up to `N` elements, until buffer and source are exhausted. -/
def partitionBP (b : BPeekN α N) (f : α → Bool) : List α × List α :=
  let rf := refill (N - b.queue.len) (b.inner, b.queue)
  partitionLoopFuel f (rf.2.len + rf.1.length + 1) rf.1 rf.2 none [] []

/-- The pull loop of `ensure_elements for BPeekN`: move `k` elements from
the source to the buffer's back; report failure (the `?` early return)
when the source runs dry, keeping the part already pulled. -/
def pullK : Nat → BPeekN α N → Bool × BPeekN α N
  | 0, b => (true, b)
  | k + 1, b =>
    match b.inner with
    | [] => (false, b)
    | a :: rest => pullK k ⟨rest, (b.queue.push_back a).1⟩

/-- Model of `BPeekN::ensure_elements`: when fewer than `c` elements are
buffered, pull exactly the difference from the source; on success return
the first `c` buffered elements (by reference in the source). -/
def ensure_elements (b : BPeekN α N) (c : Nat) : Option (List α) × BPeekN α N :=
  let pulled := if b.queue.len < c then pullK (c - b.queue.len) b else (true, b)
  match pulled with
  | (false, b') => (none, b')
  | (true, b') => (some ((List.range c).filterMap (fun i => b'.queue.get i)), b')

/-- Model of `BPeekN::bpeek` (including `bpeek1`/`bpeek2`/`bpeek3`):
ensure `ind` buffered elements; on failure no cursor is produced, but the
elements already pulled stay buffered. -/
def bpeek (b : BPeekN α N) (ind : Nat) : Bool × BPeekN α N :=
  match ensure_elements b ind with
  | (none, b') => (false, b')
  | (some _, b') => (true, b')

/-- Model of `Deref for PeekCursor`: the buffered element at window index
`Ind - 1`. -/
def peekDeref (b : BPeekN α N) (ind : Nat) : Option α :=
  b.queue.get (ind - 1)

/-- Model of `PeekCursor::peek_all`: the first `ind` buffered elements,
without consuming them. -/
def peek_all (b : BPeekN α N) (ind : Nat) : List α :=
  (List.range ind).filterMap (fun i => b.queue.get i)

/-- Model of `PeekCursor::take_all`: pop the first `ind` elements off the
buffer front and return them by value. -/
def take_all (b : BPeekN α N) (ind : Nat) : List α × BPeekN α N :=
  let r := Dequeue.popK ind b.queue
  (r.1, ⟨b.inner, r.2⟩)

/-- Model of `PeekCursor::peek_prev`: narrowing the window is pure type
arithmetic; the adapter state is untouched. -/
def peek_prev (b : BPeekN α N) : BPeekN α N := b

/-- Model of `PeekCursor::peek_forward`: when the buffer does not already
hold `ind + 1` elements, pull exactly one from the source; an exhausted
source returns the unchanged cursor as the failure value. -/
def peek_forward (b : BPeekN α N) (ind : Nat) : Bool × BPeekN α N :=
  if b.queue.len ≤ ind then
    match b.inner with
    | [] => (false, b)
    | a :: rest => (true, ⟨rest, (b.queue.push_back a).1⟩)
  else
    (true, b)

section Equivalences

open Dequeue

/-- A buffer with non-zero logical length decomposes as a head and tail,
with `pop_front` producing exactly that decomposition. -/
theorem queue_decomp {q : Dequeue α N} (h : q.Inv) (hne : q.len ≠ 0) :
    ∃ a t, q.toList = a :: t ∧ q.pop_front = (some a, (q.pop_front).2) ∧
      (q.pop_front).2.toList = t ∧ (q.pop_front).2.Inv ∧
      (q.pop_front).2.len = q.len - 1 := by
  have h1 : (q.pop_front).1 = q.toList.head? := pop_front_fst_toList h
  have h2 : (q.pop_front).2.toList = q.toList.tail := toList_pop_front h
  have hlnil : q.toList ≠ [] := by
    intro hc
    have := toList_length h
    rw [hc] at this
    simp at this
    omega
  obtain ⟨a, t, hat⟩ : ∃ a t, q.toList = a :: t := by
    cases hc : q.toList with
    | nil => exact absurd hc hlnil
    | cons a t => exact ⟨a, t, rfl⟩
  refine ⟨a, t, hat, ?_, ?_, h.pop_front, pop_front_snd_len hne⟩
  · refine Prod.ext ?_ rfl
    rw [h1, hat]
    rfl
  · rw [h2, hat]
    rfl

theorem count_eq {b : BPeekN α N} (hq : b.queue.Inv) :
    b.count = (b.elems).length := by
  unfold count elems
  rw [List.length_append, toList_length hq]

theorem size_hint_eq {b : BPeekN α N} (hq : b.queue.Inv) :
    b.size_hint = ((b.elems).length, some (b.elems).length) := by
  unfold size_hint elems
  rw [List.length_append, toList_length hq]
  rfl

theorem last_eq {b : BPeekN α N} (hq : b.queue.Inv) :
    b.last = (b.elems).getLast? := by
  unfold last elems
  rw [List.getLast?_append]
  cases hc : b.inner.getLast? with
  | some a => rfl
  | none =>
    rw [pop_back_fst_toList hq]
    rfl

theorem forEachTrace_eq {b : BPeekN α N} (hq : b.queue.Inv) :
    b.forEachTrace = b.elems := by
  unfold forEachTrace elems
  rw [popAll_eq_toList hq]

theorem fold_eq {b : BPeekN α N} (hq : b.queue.Inv) (init : β)
    (f : β → α → β) : b.fold init f = (b.elems).foldl f init := by
  unfold fold elems
  rw [popAll_eq_toList hq, List.foldl_append]

theorem reduce_eq {b : BPeekN α N} (hq : b.queue.Inv) (f : α → α → α) :
    b.reduce f = listReduce f (b.elems) := by
  unfold reduce elems
  by_cases hz : b.queue.len = 0
  · rw [pop_front_of_empty hz, toList_of_len_zero hz]
    rfl
  · obtain ⟨a, t, hat, hpair, htl, hinv, -⟩ := queue_decomp hq hz
    rw [hpair]
    show some (b.inner.foldl f (((b.queue.pop_front).2.popAll).foldl f a)) =
      listReduce f (b.queue.toList ++ b.inner)
    rw [popAll_eq_toList hinv, htl, hat]
    show some (b.inner.foldl f (t.foldl f a)) =
      some ((t ++ b.inner).foldl f a)
    rw [List.foldl_append]

theorem all_eq {b : BPeekN α N} (hq : b.queue.Inv) (f : α → Bool) :
    b.all f = (b.elems).all f := by
  unfold all elems
  rw [popAll_eq_toList hq, List.all_append]

theorem any_eq {b : BPeekN α N} (hq : b.queue.Inv) (f : α → Bool) :
    b.any f = (b.elems).any f := by
  unfold any elems
  rw [popAll_eq_toList hq, List.any_append]
  simp

theorem find_eq {b : BPeekN α N} (hq : b.queue.Inv) (p : α → Bool) :
    b.find p = (b.elems).find? p := by
  unfold find elems
  rw [popAll_eq_toList hq, List.find?_append]
  cases hc : b.queue.toList.find? p with
  | some a => rfl
  | none => rfl

theorem find_map_eq {b : BPeekN α N} (hq : b.queue.Inv) (f : α → Option β) :
    b.find_map f = (b.elems).findSome? f := by
  unfold find_map elems
  rw [popAll_eq_toList hq, List.findSome?_append]
  cases hc : b.queue.toList.findSome? f with
  | some a => rfl
  | none => rfl

theorem position_eq {b : BPeekN α N} (hq : b.queue.Inv) (p : α → Bool) :
    b.position p = (b.elems).findIdx? p := by
  unfold position elems
  rw [popAll_eq_toList hq, List.findIdx?_append]
  cases hc : b.queue.toList.findIdx? p with
  | some s => rfl
  | none =>
    show (b.inner.findIdx? p).map (fun pos => b.queue.toList.length + pos) =
      Option.or none ((b.inner.findIdx? p).map (fun i => i + b.queue.toList.length))
    cases hd : b.inner.findIdx? p with
    | none => rfl
    | some j =>
      show some (b.queue.toList.length + j) = some (j + b.queue.toList.length)
      rw [Nat.add_comm]

theorem next_back_spec {b : BPeekN α N} (hq : b.queue.Inv) :
    (b.next_back).1 = (b.elems).getLast? ∧
      (b.next_back).2.elems = (b.elems).dropLast ∧
      (b.next_back).2.queue.Inv := by
  unfold next_back
  cases hc : b.inner.getLast? with
  | some a =>
    have hne : b.inner ≠ [] := by
      intro hcon
      rw [hcon] at hc
      simp at hc
    refine ⟨?_, ?_, hq⟩
    · show some a = (b.elems).getLast?
      unfold elems
      rw [List.getLast?_append, hc]
      rfl
    · show b.queue.toList ++ b.inner.dropLast = (b.elems).dropLast
      unfold elems
      rw [List.dropLast_append_of_ne_nil _ hne]
  | none =>
    have hnil : b.inner = [] := List.getLast?_eq_none_iff.mp hc
    refine ⟨?_, ?_, hq.pop_back⟩
    · show (b.queue.pop_back).1 = (b.elems).getLast?
      unfold elems
      rw [hnil, List.append_nil, pop_back_fst_toList hq]
    · show b.queue.pop_back.2.toList ++ b.inner = (b.elems).dropLast
      unfold elems
      rw [hnil, List.append_nil, List.append_nil, toList_pop_back hq]

theorem next_spec {b : BPeekN α N} (hq : b.queue.Inv) :
    (b.next).1 = (b.elems).head? ∧ (b.next).2.elems = (b.elems).tail ∧
      (b.next).2.queue.Inv ∧
      (b.queue.is_empty = false → (b.next).1 = b.queue.get 0) ∧
      (b.queue.is_empty = true → (b.next).1 = b.inner.head?) := by
  unfold next
  by_cases hz : b.queue.len = 0
  · rw [pop_front_of_empty hz]
    have htl : b.queue.toList = [] := toList_of_len_zero hz
    cases hinner : b.inner with
    | nil =>
      refine ⟨?_, ?_, hq, ?_, ?_⟩
      · show (none : Option α) = (b.elems).head?
        unfold elems
        rw [htl, hinner]
        rfl
      · show b.queue.toList ++ [] = (b.elems).tail
        unfold elems
        rw [htl, hinner]
        rfl
      · intro hemp
        unfold is_empty at hemp
        simp at hemp
        omega
      · intro _
        rfl
    | cons a rest =>
      refine ⟨?_, ?_, hq, ?_, ?_⟩
      · show some a = (b.elems).head?
        unfold elems
        rw [htl, hinner]
        rfl
      · show b.queue.toList ++ rest = (b.elems).tail
        unfold elems
        rw [htl, hinner]
        rfl
      · intro hemp
        unfold is_empty at hemp
        simp at hemp
        omega
      · intro _
        rfl
  · obtain ⟨a, t, hat, hpair, htl, hinv, -⟩ := queue_decomp hq hz
    rw [hpair]
    refine ⟨?_, ?_, hinv, ?_, ?_⟩
    · show some a = (b.elems).head?
      unfold elems
      rw [hat]
      rfl
    · show (b.queue.pop_front).2.toList ++ b.inner = (b.elems).tail
      unfold elems
      rw [htl, hat]
      rfl
    · intro _
      show some a = b.queue.get 0
      have := toList_getElem? hq 0
      rw [hat] at this
      simp at this
      rw [← this]
    · intro hemp
      unfold is_empty at hemp
      simp at hemp
      omega

end Equivalences

section CursorLemmas

open Dequeue

theorem push_back_success_len {d : Dequeue α N} (hne : d.len ≠ N) (x : α) :
    ((d.push_back x).1).len = d.len + 1 := by
  unfold Dequeue.push_back Dequeue.writeAt
  rw [if_neg hne]

/-- The array of references `ensure_elements`/`peek_all` build is the
`c`-element logical prefix. -/
theorem range_filterMap_get {q : Dequeue α N} (h : q.Inv) {c : Nat}
    (hc : c ≤ q.len) :
    (List.range c).filterMap q.get = q.toList.take c := by
  apply List.ext_getElem?
  intro i
  rw [filterMap_getElem?_of_isSome (List.range c)
    (fun a ha => get_isSome h (by
      have := List.mem_range.mp ha
      omega))]
  by_cases hi : i < c
  · rw [List.getElem?_range hi, Option.some_bind,
      List.getElem?_take_of_lt hi, toList_getElem? h]
  · rw [List.getElem?_eq_none (by rw [List.length_range]; omega),
      Option.none_bind,
      List.getElem?_eq_none (by
        rw [List.length_take, toList_length h]
        omega)]

theorem pullK_spec :
    ∀ (k : Nat) (b : BPeekN α N), b.queue.Inv → b.queue.len + k ≤ N →
      ((pullK k b).2.queue.Inv ∧
       (pullK k b).2.inner = b.inner.drop k ∧
       (pullK k b).2.queue.toList = b.queue.toList ++ b.inner.take k ∧
       (pullK k b).2.queue.len = b.queue.len + min k b.inner.length ∧
       ((pullK k b).1 = true ↔ k ≤ b.inner.length))
  | 0, b, h, _ => by
    rw [pullK]
    refine ⟨h, by rw [List.drop_zero], by rw [List.take_zero, List.append_nil],
      by simp, by simp⟩
  | k + 1, b, h, hle => by
    rw [pullK]
    cases hinner : b.inner with
    | nil =>
      refine ⟨h, by simp [hinner], by simp [hinner], by simp [hinner],
        by simp [hinner]⟩
    | cons a rest =>
      have hlt : b.queue.len ≠ N := by omega
      have hpb := toList_push_back h (by omega) a
      have hinv := h.push_back a
      have hlen := push_back_success_len hlt a
      obtain ⟨ih1, ih2, ih3, ih4, ih5⟩ :=
        pullK_spec k ⟨rest, (b.queue.push_back a).1⟩ hinv (by
          show ((b.queue.push_back a).1).len + k ≤ N
          omega)
      refine ⟨ih1, ?_, ?_, ?_, ?_⟩
      · rw [ih2]
        rfl
      · show (pullK k ⟨rest, (b.queue.push_back a).1⟩).2.queue.toList =
          b.queue.toList ++ (a :: rest).take (k + 1)
        rw [ih3]
        show ((b.queue.push_back a).1).toList ++ rest.take k =
          b.queue.toList ++ (a :: rest.take k)
        rw [hpb, List.append_assoc]
        rfl
      · show (pullK k ⟨rest, (b.queue.push_back a).1⟩).2.queue.len =
          b.queue.len + min (k + 1) (a :: rest).length
        rw [ih4, hlen]
        show b.queue.len + 1 + min k rest.length =
          b.queue.len + min (k + 1) (rest.length + 1)
        omega
      · rw [ih5]
        show k ≤ rest.length ↔ k + 1 ≤ (a :: rest).length
        rw [List.length_cons]
        omega

/-- `ensure_elements` when the buffer already holds enough: no state
change, and the window is the logical prefix. -/
theorem ensure_of_enough {b : BPeekN α N} (hq : b.queue.Inv) {c : Nat}
    (hc : c ≤ b.queue.len) :
    b.ensure_elements c = (some (b.queue.toList.take c), b) := by
  unfold ensure_elements
  rw [if_neg (by omega)]
  show (some ((List.range c).filterMap b.queue.get), b) = _
  rw [range_filterMap_get hq hc]

/-- `ensure_elements` when it must pull and the source suffices: exactly
`c - len` elements move from the source to the buffer. -/
theorem ensure_of_pull_success {b : BPeekN α N} (hq : b.queue.Inv) {c : Nat}
    (hcN : c ≤ N) (hlt : b.queue.len < c)
    (hav : c - b.queue.len ≤ b.inner.length) :
    (b.ensure_elements c).1 =
        some ((b.queue.toList ++ b.inner.take (c - b.queue.len)).take c) ∧
      (b.ensure_elements c).2.inner = b.inner.drop (c - b.queue.len) ∧
      (b.ensure_elements c).2.queue.toList =
        b.queue.toList ++ b.inner.take (c - b.queue.len) ∧
      (b.ensure_elements c).2.queue.Inv := by
  obtain ⟨h1, h2, h3, h4, h5⟩ :=
    pullK_spec (c - b.queue.len) b hq (by omega)
  have hflag : (pullK (c - b.queue.len) b).1 = true := h5.mpr hav
  have hred : b.ensure_elements c =
      (some ((List.range c).filterMap (pullK (c - b.queue.len) b).2.queue.get),
        (pullK (c - b.queue.len) b).2) := by
    unfold ensure_elements
    rw [if_pos hlt]
    rw [show pullK (c - b.queue.len) b =
      (true, (pullK (c - b.queue.len) b).2) from Prod.ext hflag rfl]
  rw [hred]
  refine ⟨?_, h2, h3, h1⟩
  show some ((List.range c).filterMap (pullK (c - b.queue.len) b).2.queue.get) =
    some ((b.queue.toList ++ b.inner.take (c - b.queue.len)).take c)
  rw [range_filterMap_get h1 (by rw [h4]; omega), h3]

/-- `ensure_elements` when the source is exhausted early: no window, the
whole source drains into the buffer. -/
theorem ensure_of_pull_fail {b : BPeekN α N} (hq : b.queue.Inv) {c : Nat}
    (hcN : c ≤ N) (hlt : b.queue.len < c)
    (hav : b.inner.length < c - b.queue.len) :
    (b.ensure_elements c).1 = none ∧
      (b.ensure_elements c).2.inner = [] ∧
      (b.ensure_elements c).2.queue.toList = b.queue.toList ++ b.inner ∧
      (b.ensure_elements c).2.queue.Inv := by
  obtain ⟨h1, h2, h3, h4, h5⟩ :=
    pullK_spec (c - b.queue.len) b hq (by omega)
  have hflag : (pullK (c - b.queue.len) b).1 = false := by
    cases hcase : (pullK (c - b.queue.len) b).1 with
    | false => rfl
    | true => exact absurd (h5.mp hcase) (by omega)
  have hred : b.ensure_elements c = (none, (pullK (c - b.queue.len) b).2) := by
    unfold ensure_elements
    rw [if_pos hlt]
    rw [show pullK (c - b.queue.len) b =
      (false, (pullK (c - b.queue.len) b).2) from Prod.ext hflag rfl]
  rw [hred]
  refine ⟨rfl, ?_, ?_, h1⟩
  · rw [h2, List.drop_eq_nil_of_le (by omega)]
  · rw [h3, List.take_of_length_le (by omega)]

/-- `peek_forward` preserves the unbuffered view; it fails exactly when
the buffer is at the window size and the source is exhausted. -/
theorem peek_forward_spec {b : BPeekN α N} (hq : b.queue.Inv) {ind : Nat}
    (hind : ind < N) :
    (b.peek_forward ind).2.elems = b.elems ∧
      (b.peek_forward ind).2.queue.Inv ∧
      ((b.peek_forward ind).1 = false ↔
        (b.queue.len ≤ ind ∧ b.inner = [])) := by
  unfold peek_forward
  by_cases hle : b.queue.len ≤ ind
  · rw [if_pos hle]
    cases hinner : b.inner with
    | nil =>
      refine ⟨?_, hq, by simp [hle]⟩
      show b.elems = b.elems
      rfl
    | cons a rest =>
      have hlt : b.queue.len < N := by omega
      refine ⟨?_, hq.push_back a, by simp⟩
      show ((b.queue.push_back a).1).toList ++ rest = b.elems
      rw [toList_push_back hq hlt a]
      unfold elems
      rw [hinner, List.append_assoc]
      rfl
  · rw [if_neg hle]
    exact ⟨rfl, hq, by simp; omega⟩

/-- `take_all` removes and returns exactly the first `ind` elements of
the unbuffered view. -/
theorem take_all_spec {b : BPeekN α N} (hq : b.queue.Inv) {ind : Nat}
    (hind : ind ≤ b.queue.len) :
    (b.take_all ind).1 = (b.elems).take ind ∧
      (b.take_all ind).2.elems = (b.elems).drop ind ∧
      (b.take_all ind).2.queue.Inv := by
  obtain ⟨h1, h2, h3, h4⟩ := popK_spec ind b.queue hq hind
  have hlen : ind ≤ b.queue.toList.length := by
    rw [toList_length hq]
    omega
  unfold take_all elems
  refine ⟨?_, ?_, h2⟩
  · show (Dequeue.popK ind b.queue).1 = (b.queue.toList ++ b.inner).take ind
    rw [h1, List.take_append_of_le_length hlen]
  · show (Dequeue.popK ind b.queue).2.toList ++ b.inner =
      (b.queue.toList ++ b.inner).drop ind
    rw [h3, List.drop_append_of_le_length hlen]

end CursorLemmas

section PartitionProof

open Dequeue

variable {γ : Type}

theorem length_takeWhile_le' (P : γ → Bool) :
    ∀ (l : List γ), (l.takeWhile P).length ≤ l.length
  | [] => Nat.le_refl _
  | x :: xs => by
    rw [List.takeWhile_cons]
    by_cases hx : P x = true
    · rw [if_pos hx, List.length_cons, List.length_cons]
      exact Nat.succ_le_succ (length_takeWhile_le' P xs)
    · rw [if_neg hx]
      exact Nat.zero_le _

theorem take_length_takeWhile (P : γ → Bool) :
    ∀ (l : List γ), l.take ((l.takeWhile P).length) = l.takeWhile P
  | [] => rfl
  | x :: xs => by
    rw [List.takeWhile_cons]
    by_cases hx : P x = true
    · rw [if_pos hx, List.length_cons, List.take_succ_cons,
        take_length_takeWhile P xs]
    · rw [if_neg hx]
      rfl

theorem takeWhile_boundary (P : γ → Bool) :
    ∀ (l : List γ), (l.takeWhile P).length < l.length →
      ∃ bj, l[(l.takeWhile P).length]? = some bj ∧ P bj = false
  | [], h => absurd h (by simp)
  | x :: xs, h => by
    rw [List.takeWhile_cons] at h ⊢
    by_cases hx : P x = true
    · rw [if_pos hx] at h ⊢
      rw [List.length_cons]
      obtain ⟨bj, hbj, hP⟩ := takeWhile_boundary P xs (by
        rw [List.length_cons, List.length_cons] at h
        omega)
      exact ⟨bj, by rw [List.getElem?_cons_succ]; exact hbj, hP⟩
    · rw [if_neg hx] at h ⊢
      refine ⟨x, by rw [List.length_nil, List.getElem?_cons_zero], ?_⟩
      cases hc : P x with
      | false => rfl
      | true => exact absurd hc hx

/-- Specification of the run-scanning loop: starting at index `i` it
advances over the longest run of elements with predicate value `result`,
caching `!result` exactly when it stopped at a mismatch rather than at
the end of the buffer. -/
theorem scanRunFuel_spec (f : α → Bool) (result : Bool) :
    ∀ (fuel : Nat) (q : Dequeue α N) (i : Nat), q.Inv → q.len ≤ i + fuel →
      (scanRunFuel f q result i fuel).1 =
          i + ((q.toList.drop i).takeWhile (fun a => f a == result)).length ∧
        (scanRunFuel f q result i fuel).2 =
          (if ((q.toList.drop i).takeWhile (fun a => f a == result)).length =
              (q.toList.drop i).length
           then (none : Option Bool) else some (!result))
  | 0, q, i, h, hle => by
    have ht : q.toList.drop i = [] :=
      List.drop_eq_nil_of_le (by rw [toList_length h]; omega)
    rw [scanRunFuel, ht]
    simp
  | fuel + 1, q, i, h, hle => by
    cases hget : q.get i with
    | none =>
      have hred : scanRunFuel f q result i (fuel + 1) = (i, none) := by
        rw [scanRunFuel, hget]
      have hige : q.len ≤ i := by
        by_contra hcon
        have := get_isSome h (show i < q.len by omega)
        rw [hget] at this
        simp at this
      have ht : q.toList.drop i = [] :=
        List.drop_eq_nil_of_le (by rw [toList_length h]; omega)
      rw [hred, ht]
      simp
    | some v =>
      have hilt : i < q.len := by
        by_contra hcon
        rw [get_of_le (by omega)] at hget
        simp at hget
      have hgi : q.toList[i]? = some v := by
        rw [toList_getElem? h, hget]
      have hlen : i < q.toList.length := by
        rw [toList_length h]
        omega
      have hdecomp : q.toList.drop i = v :: q.toList.drop (i + 1) := by
        rw [List.drop_eq_getElem_cons hlen]
        obtain ⟨hwit, hval⟩ := List.getElem?_eq_some_iff.mp hgi
        rw [hval]
      have hred : scanRunFuel f q result i (fuel + 1) =
          if (f v == result) = true then scanRunFuel f q result (i + 1) fuel
          else (i, some (!result)) := by
        rw [scanRunFuel, hget]
      rw [hred, hdecomp, List.takeWhile_cons]
      by_cases hv : (f v == result) = true
      · rw [if_pos hv, if_pos hv]
        obtain ⟨ih1, ih2⟩ := scanRunFuel_spec f result fuel q (i + 1) h (by omega)
        refine ⟨?_, ?_⟩
        · rw [ih1, List.length_cons]
          omega
        · rw [ih2, List.length_cons, List.length_cons]
          by_cases hfull : ((q.toList.drop (i + 1)).takeWhile
              (fun a => f a == result)).length = (q.toList.drop (i + 1)).length
          · rw [if_pos hfull, if_pos (by omega)]
          · rw [if_neg hfull, if_neg (by omega)]
      · rw [if_neg hv, if_neg hv]
        refine ⟨by simp, ?_⟩
        rw [if_neg (by
          rw [List.length_nil, List.length_cons]
          omega)]

/-- Iota-reduction of one round of the drain loop, once the cache is
known to agree with the predicate value of the front element. -/
theorem drainRunsFuel_cons_red (f : α → Bool) (fuel : Nat) (q : Dequeue α N)
    (cache : Option Bool) (tc fc : List α) (a : α)
    (hpair : q.pop_front = (some a, (q.pop_front).2))
    (hc : cache = none ∨ cache = some (f a)) :
    drainRunsFuel f (fuel + 1) q cache tc fc =
      (if f a = true then
        drainRunsFuel f fuel
          (Dequeue.popK (scanRunFuel f (q.pop_front).2 (f a) 0
            (q.pop_front).2.len).1 (q.pop_front).2).2
          (scanRunFuel f (q.pop_front).2 (f a) 0 (q.pop_front).2.len).2
          (tc ++ a :: (Dequeue.popK (scanRunFuel f (q.pop_front).2 (f a) 0
            (q.pop_front).2.len).1 (q.pop_front).2).1)
          fc
      else
        drainRunsFuel f fuel
          (Dequeue.popK (scanRunFuel f (q.pop_front).2 (f a) 0
            (q.pop_front).2.len).1 (q.pop_front).2).2
          (scanRunFuel f (q.pop_front).2 (f a) 0 (q.pop_front).2.len).2
          tc
          (fc ++ a :: (Dequeue.popK (scanRunFuel f (q.pop_front).2 (f a) 0
            (q.pop_front).2.len).1 (q.pop_front).2).1)) := by
  rcases hc with hc | hc <;> subst hc <;> rw [drainRunsFuel, hpair]

/-- Specification of the drain loop of `partition`: it empties the
buffer, distributing every element to the collection selected by the
predicate, in order; on exit the cache is empty. -/
theorem drainRunsFuel_spec (f : α → Bool) :
    ∀ (fuel : Nat) (q : Dequeue α N) (cache : Option Bool) (tc fc : List α),
      q.Inv → q.len ≤ fuel →
      (∀ r, cache = some r → ∃ a t, q.toList = a :: t ∧ f a = r) →
      ((drainRunsFuel f fuel q cache tc fc).1.Inv ∧
       (drainRunsFuel f fuel q cache tc fc).1.len = 0 ∧
       (drainRunsFuel f fuel q cache tc fc).2.1 = none ∧
       (drainRunsFuel f fuel q cache tc fc).2.2.1 = tc ++ q.toList.filter f ∧
       (drainRunsFuel f fuel q cache tc fc).2.2.2 =
         fc ++ q.toList.filter (fun a => !(f a)))
  | 0, q, cache, tc, fc, h, hle, hcache => by
    have hz : q.len = 0 := by omega
    have ht : q.toList = [] := toList_of_len_zero hz
    have hcn : cache = none := by
      cases hcc : cache with
      | none => rfl
      | some r =>
        obtain ⟨a, t, hat, -⟩ := hcache r hcc
        rw [ht] at hat
        exact absurd hat (by simp)
    rw [drainRunsFuel, hcn, ht]
    exact ⟨h, hz, rfl, by simp, by simp⟩
  | fuel + 1, q, cache, tc, fc, h, hle, hcache => by
    by_cases hz : q.len = 0
    · have ht : q.toList = [] := toList_of_len_zero hz
      have hcn : cache = none := by
        cases hcc : cache with
        | none => rfl
        | some r =>
          obtain ⟨a, t, hat, -⟩ := hcache r hcc
          rw [ht] at hat
          exact absurd hat (by simp)
      have hred : drainRunsFuel f (fuel + 1) q cache tc fc =
          (q, cache, tc, fc) := by
        rw [drainRunsFuel, pop_front_of_empty hz]
      rw [hred, hcn, ht]
      exact ⟨h, hz, rfl, by simp, by simp⟩
    · obtain ⟨a, t, hat, hpair, htl, hinv, hlen'⟩ := queue_decomp h hz
      have hkey : ∀ r, cache = some r → r = f a := by
        intro r hcc
        obtain ⟨a0, t0, ha0, hf0⟩ := hcache r hcc
        rw [hat] at ha0
        injection ha0 with h1 h2
        rw [← hf0, h1]
      have hcval : cache = none ∨ cache = some (f a) := by
        cases hcc : cache with
        | none => exact Or.inl rfl
        | some r =>
          right
          rw [hkey r hcc]
      have hred := drainRunsFuel_cons_red f fuel q cache tc fc a hpair hcval
      obtain ⟨hs1, hs2⟩ := scanRunFuel_spec f (f a) (q.pop_front).2.len
        (q.pop_front).2 0 hinv (by omega)
      rw [List.drop_zero, htl] at hs1 hs2
      rw [Nat.zero_add] at hs1
      have hrun_le : (t.takeWhile (fun x => f x == f a)).length ≤ t.length :=
        length_takeWhile_le' _ t
      have htlen : t.length = q.len - 1 := by
        have := toList_length h
        rw [hat] at this
        simp at this
        omega
      rw [hs1, hs2] at hred
      obtain ⟨hp1, hp2, hp3, hp4⟩ := popK_spec
        (t.takeWhile (fun x => f x == f a)).length
        (q.pop_front).2 hinv (by rw [hlen']; omega)
      rw [htl] at hp1 hp3
      have htake : t.take (t.takeWhile (fun x => f x == f a)).length =
          t.takeWhile (fun x => f x == f a) := take_length_takeWhile _ t
      have hcinv : ∀ r,
          (if (t.takeWhile (fun x => f x == f a)).length = t.length
           then (none : Option Bool) else some (!(f a))) = some r →
          ∃ b u, (Dequeue.popK (t.takeWhile (fun x => f x == f a)).length
            (q.pop_front).2).2.toList = b :: u ∧ f b = r := by
        intro r hr
        by_cases hfull : (t.takeWhile (fun x => f x == f a)).length = t.length
        · rw [if_pos hfull] at hr
          exact absurd hr (by simp)
        · rw [if_neg hfull] at hr
          have hrv : r = !(f a) := (Option.some.inj hr).symm
          obtain ⟨bj, hbj, hPbj⟩ := takeWhile_boundary
            (fun x => f x == f a) t (by omega)
          have hblt : (t.takeWhile (fun x => f x == f a)).length < t.length := by
            omega
          have hdecomp : t.drop (t.takeWhile (fun x => f x == f a)).length =
              bj :: t.drop ((t.takeWhile (fun x => f x == f a)).length + 1) := by
            rw [List.drop_eq_getElem_cons hblt]
            obtain ⟨hwit, hval⟩ := List.getElem?_eq_some_iff.mp hbj
            rw [hval]
          refine ⟨bj, t.drop ((t.takeWhile (fun x => f x == f a)).length + 1),
            ?_, ?_⟩
          · rw [hp3, hdecomp]
          · have hfbj : f bj ≠ f a := by
              intro hcon
              rw [hcon] at hPbj
              simp at hPbj
            rw [hrv]
            exact Bool.eq_not_of_ne hfbj
      have hfilter_pos : f a = true →
          (t.takeWhile (fun x => f x == f a)).filter f =
            t.takeWhile (fun x => f x == f a) := by
        intro hfa
        apply List.filter_eq_self.mpr
        intro x hx
        have := List.mem_takeWhile_imp hx
        simp at this
        rw [this, hfa]
      have hfilter_posneg : f a = true →
          (t.takeWhile (fun x => f x == f a)).filter (fun x => !(f x)) = [] := by
        intro hfa
        apply List.filter_eq_nil_iff.mpr
        intro x hx
        have := List.mem_takeWhile_imp hx
        simp at this
        rw [this, hfa]
        simp
      have hfilter_neg : f a = false →
          (t.takeWhile (fun x => f x == f a)).filter (fun x => !(f x)) =
            t.takeWhile (fun x => f x == f a) := by
        intro hfa
        apply List.filter_eq_self.mpr
        intro x hx
        have := List.mem_takeWhile_imp hx
        simp at this
        rw [this, hfa]
        simp
      have hfilter_negpos : f a = false →
          (t.takeWhile (fun x => f x == f a)).filter f = [] := by
        intro hfa
        apply List.filter_eq_nil_iff.mpr
        intro x hx
        have := List.mem_takeWhile_imp hx
        simp at this
        rw [this, hfa]
        simp
      have hsplit : t = t.takeWhile (fun x => f x == f a) ++
          t.drop (t.takeWhile (fun x => f x == f a)).length := by
        conv_lhs => rw [← List.take_append_drop
          (t.takeWhile (fun x => f x == f a)).length t]
        rw [htake]
      obtain ⟨ih1, ih2, ih3, ih4, ih5⟩ := drainRunsFuel_spec f fuel
        ((Dequeue.popK (t.takeWhile (fun x => f x == f a)).length
          (q.pop_front).2).2)
        (if (t.takeWhile (fun x => f x == f a)).length = t.length
         then (none : Option Bool) else some (!(f a)))
        (tc ++ a :: (Dequeue.popK (t.takeWhile (fun x => f x == f a)).length
          (q.pop_front).2).1)
        fc hp2 (by rw [hp4, hlen']; omega) hcinv
      obtain ⟨ih1', ih2', ih3', ih4', ih5'⟩ := drainRunsFuel_spec f fuel
        ((Dequeue.popK (t.takeWhile (fun x => f x == f a)).length
          (q.pop_front).2).2)
        (if (t.takeWhile (fun x => f x == f a)).length = t.length
         then (none : Option Bool) else some (!(f a)))
        tc
        (fc ++ a :: (Dequeue.popK (t.takeWhile (fun x => f x == f a)).length
          (q.pop_front).2).1)
        hp2 (by rw [hp4, hlen']; omega) hcinv
      cases hfa : f a with
      | true =>
        rw [hred, if_pos (by rw [hfa])]
        refine ⟨ih1, ih2, ih3, ?_, ?_⟩
        · rw [ih4, hp1, htake, hp3, hat,
            List.filter_cons_of_pos (by rw [hfa])]
          conv_rhs => rw [hsplit]
          rw [List.filter_append, hfilter_pos hfa]
          rw [List.append_assoc]
          rfl
        · rw [ih5, hp3, hat,
            List.filter_cons_of_neg (by rw [hfa]; simp)]
          conv_rhs => rw [hsplit]
          rw [List.filter_append, hfilter_posneg hfa]
          rfl
      | false =>
        rw [hred, if_neg (by rw [hfa]; simp)]
        refine ⟨ih1', ih2', ih3', ?_, ?_⟩
        · rw [ih4', hp3, hat,
            List.filter_cons_of_neg (by rw [hfa]; simp)]
          conv_rhs => rw [hsplit]
          rw [List.filter_append, hfilter_negpos hfa]
          rfl
        · rw [ih5', hp1, htake, hp3, hat,
            List.filter_cons_of_pos (by rw [hfa]; simp)]
          conv_rhs => rw [hsplit]
          rw [List.filter_append, hfilter_neg hfa]
          rw [List.append_assoc]
          rfl

/-- Specification of the refill loops: up to `k` elements move from the
source to the buffer's back; no push is ever rejected. -/
theorem refill_spec :
    ∀ (k : Nat) (inner : List α) (q : Dequeue α N), q.Inv → q.len + k ≤ N →
      ((refill k (inner, q)).1 = inner.drop k ∧
       (refill k (inner, q)).2.toList = q.toList ++ inner.take k ∧
       (refill k (inner, q)).2.Inv ∧
       (refill k (inner, q)).2.len = q.len + min k inner.length)
  | 0, inner, q, h, _ => by
    refine ⟨?_, ?_, h, ?_⟩
    · show inner = inner.drop 0
      rw [List.drop_zero]
    · show q.toList = q.toList ++ inner.take 0
      rw [List.take_zero, List.append_nil]
    · show q.len = q.len + min 0 inner.length
      simp
  | k + 1, inner, q, h, hle => by
    cases hinner : inner with
    | nil =>
      refine ⟨?_, ?_, h, ?_⟩
      · show ([] : List α) = ([] : List α).drop (k + 1)
        simp
      · show q.toList = q.toList ++ ([] : List α).take (k + 1)
        simp
      · show q.len = q.len + min (k + 1) ([] : List α).length
        simp
    | cons a rest =>
      have hlt : q.len ≠ N := by omega
      have hpb := toList_push_back h (by omega) a
      have hinv := h.push_back a
      have hlen := push_back_success_len hlt a
      obtain ⟨ih1, ih2, ih3, ih4⟩ :=
        refill_spec k rest ((q.push_back a).1) hinv (by
          show ((q.push_back a).1).len + k ≤ N
          omega)
      refine ⟨?_, ?_, ih3, ?_⟩
      · show (refill k (rest, (q.push_back a).1)).1 = (a :: rest).drop (k + 1)
        rw [ih1]
        rfl
      · show (refill k (rest, (q.push_back a).1)).2.toList =
          q.toList ++ (a :: rest).take (k + 1)
        rw [ih2, hpb, List.append_assoc]
        rfl
      · show (refill k (rest, (q.push_back a).1)).2.len =
          q.len + min (k + 1) (a :: rest).length
        rw [ih4, hlen]
        show q.len + 1 + min k rest.length =
          q.len + min (k + 1) (rest.length + 1)
        omega

/-- Specification of the outer `partition` loop: starting with an empty
cache it distributes everything still in the buffer or the source. -/
theorem partitionLoopFuel_spec (f : α → Bool) (hN : 0 < N) :
    ∀ (fuel : Nat) (inner : List α) (q : Dequeue α N) (tc fc : List α),
      q.Inv → q.len + inner.length < fuel → (q.len = 0 → inner = []) →
      partitionLoopFuel f fuel inner q none tc fc =
        (tc ++ (q.toList ++ inner).filter f,
         fc ++ (q.toList ++ inner).filter (fun a => !(f a)))
  | 0, inner, q, tc, fc, h, hfuel, hqe => absurd hfuel (by omega)
  | fuel + 1, inner, q, tc, fc, h, hfuel, hqe => by
    rw [partitionLoopFuel]
    by_cases hz : q.len = 0
    · have hemp : q.is_empty = true := by
        unfold Dequeue.is_empty
        simp [hz]
      rw [if_pos hemp]
      have hinner := hqe hz
      rw [toList_of_len_zero hz, hinner]
      simp
    · have hemp : ¬q.is_empty = true := by
        unfold Dequeue.is_empty
        simp
        omega
      rw [if_neg hemp]
      show partitionLoopFuel f fuel
        (refill N (inner, (drainRunsFuel f q.len q none tc fc).1)).1
        (refill N (inner, (drainRunsFuel f q.len q none tc fc).1)).2
        (drainRunsFuel f q.len q none tc fc).2.1
        (drainRunsFuel f q.len q none tc fc).2.2.1
        (drainRunsFuel f q.len q none tc fc).2.2.2 = _
      obtain ⟨hd1, hd2, hd3, hd4, hd5⟩ := drainRunsFuel_spec f q.len q none
        tc fc h (Nat.le_refl _) (by intro r hr; exact absurd hr (by simp))
      obtain ⟨hr1, hr2, hr3, hr4⟩ := refill_spec N inner
        ((drainRunsFuel f q.len q none tc fc).1) hd1 (by omega)
      have hdrtl : (drainRunsFuel f q.len q none tc fc).1.toList = [] :=
        toList_of_len_zero hd2
      rw [hd3]
      rw [partitionLoopFuel_spec f hN fuel
        ((refill N (inner, (drainRunsFuel f q.len q none tc fc).1)).1)
        ((refill N (inner, (drainRunsFuel f q.len q none tc fc).1)).2)
        ((drainRunsFuel f q.len q none tc fc).2.2.1)
        ((drainRunsFuel f q.len q none tc fc).2.2.2)
        hr3
        (by
          rw [hr4, hr1, hd2, List.length_drop]
          omega)
        (by
          intro hrz
          rw [hr4, hd2] at hrz
          have hinz : inner.length = 0 := by omega
          rw [hr1, List.drop_eq_nil_of_le (by omega)])]
      rw [hd4, hd5, hr2, hr1, hdrtl, List.nil_append]
      rw [List.take_append_drop]
      rw [List.append_assoc, List.append_assoc, ← List.filter_append,
        ← List.filter_append]
  
/-- `partition for BPeekN` computes exactly the raw list partition of
the unbuffered view (for positive capacity). -/
theorem partitionBP_eq {b : BPeekN α N} (hq : b.queue.Inv) (hN : 0 < N)
    (f : α → Bool) :
    b.partitionBP f = ((b.elems).filter f, (b.elems).filter (fun a => !(f a))) := by
  have hred : b.partitionBP f =
      partitionLoopFuel f
        ((refill (N - b.queue.len) (b.inner, b.queue)).2.len +
          (refill (N - b.queue.len) (b.inner, b.queue)).1.length + 1)
        ((refill (N - b.queue.len) (b.inner, b.queue)).1)
        ((refill (N - b.queue.len) (b.inner, b.queue)).2) none [] [] := rfl
  have hlenN := hq.len_le
  obtain ⟨hr1, hr2, hr3, hr4⟩ := refill_spec (N - b.queue.len) b.inner b.queue
    hq (by omega)
  rw [hred, partitionLoopFuel_spec f hN _ _ _ _ _ hr3 (by omega) (by
    intro hrz
    rw [hr4] at hrz
    have hbz : b.queue.len = 0 := by omega
    have hinz : min (N - b.queue.len) b.inner.length = 0 := by omega
    rw [hbz] at hinz
    have : b.inner.length = 0 := by omega
    rw [hr1, List.drop_eq_nil_of_le (by omega)])]
  rw [hr2, hr1, List.nil_append, List.nil_append, List.append_assoc,
    List.take_append_drop]
  rfl

end PartitionProof

end BPeekN

namespace Dequeue

variable {α : Type} {N : Nat}

theorem pop_back_snd_len {q : Dequeue α N} (hne : q.len ≠ 0) :
    ((q.pop_back).2).len = q.len - 1 := by
  unfold Dequeue.pop_back Dequeue.takeAt
  rw [if_neg hne]

theorem pop_back_of_empty {q : Dequeue α N} (hz : q.len = 0) :
    q.pop_back = (none, q) := by
  unfold Dequeue.pop_back
  rw [if_pos hz]

/-- Fueled back-to-front drain (repeated `pop_back`), the LIFO order of
the FIFO/LIFO claim. -/
def popBackAllFuel : Nat → Dequeue α N → List α
  | 0, _ => []
  | fuel + 1, q =>
    match q.pop_back with
    | (none, _) => []
    | (some a, q') => a :: popBackAllFuel fuel q'

def popBackAll (q : Dequeue α N) : List α := popBackAllFuel q.len q

theorem popBackAllFuel_eq :
    ∀ (fuel : Nat) (q : Dequeue α N), q.Inv → q.len ≤ fuel →
      popBackAllFuel fuel q = q.toList.reverse
  | 0, q, h, hle => by
    rw [popBackAllFuel, toList_of_len_zero (by omega)]
    rfl
  | fuel + 1, q, h, hle => by
    by_cases hz : q.len = 0
    · rw [popBackAllFuel, pop_back_of_empty hz, toList_of_len_zero hz]
      rfl
    · have hlnil : q.toList ≠ [] := by
        intro hc
        have := toList_length h
        rw [hc] at this
        simp at this
        omega
      have hg : q.toList.getLast? = some (q.toList.getLast hlnil) :=
        List.getLast?_eq_getLast _ hlnil
      have hpair : q.pop_back = (some (q.toList.getLast hlnil), (q.pop_back).2) := by
        refine Prod.ext ?_ rfl
        rw [pop_back_fst_toList h, hg]
      rw [popBackAllFuel, hpair]
      show q.toList.getLast hlnil :: popBackAllFuel fuel ((q.pop_back).2) =
        q.toList.reverse
      rw [popBackAllFuel_eq fuel _ (h.pop_back)
        (by rw [pop_back_snd_len hz]; omega), toList_pop_back h]
      conv_rhs => rw [← List.dropLast_concat_getLast hlnil]
      rw [List.reverse_append]
      rfl

theorem popBackAll_eq_reverse {q : Dequeue α N} (h : q.Inv) :
    q.popBackAll = q.toList.reverse :=
  popBackAllFuel_eq q.len q h (Nat.le_refl _)

/-- Drive a sequence of `push_back` calls, recording whether every one
was accepted. -/
def pushList : Dequeue α N → List α → Dequeue α N × Bool
  | d, [] => (d, true)
  | d, a :: t =>
    match d.push_back a with
    | (d', PushStatus.Success) => pushList d' t
    | (d', PushStatus.Rejected _) => ((pushList d' t).1, false)

/-- Drive a sequence of `push_front` calls, recording whether every one
was accepted. -/
def pushFrontList : Dequeue α N → List α → Dequeue α N × Bool
  | d, [] => (d, true)
  | d, a :: t =>
    match d.push_front a with
    | (d', PushStatus.Success) => pushFrontList d' t
    | (d', PushStatus.Rejected _) => ((pushFrontList d' t).1, false)

theorem push_front_success_len {d : Dequeue α N} (hne : d.len ≠ N) (x : α) :
    ((d.push_front x).1).len = d.len + 1 := by
  unfold Dequeue.push_front Dequeue.writeAt
  rw [if_neg hne]

theorem push_back_success_status {d : Dequeue α N} (hne : d.len ≠ N) (x : α) :
    d.push_back x = ((d.push_back x).1, PushStatus.Success) := by
  refine Prod.ext rfl ?_
  show (d.push_back x).2 = PushStatus.Success
  unfold Dequeue.push_back
  rw [if_neg hne]

theorem push_front_success_status {d : Dequeue α N} (hne : d.len ≠ N) (x : α) :
    d.push_front x = ((d.push_front x).1, PushStatus.Success) := by
  refine Prod.ext rfl ?_
  show (d.push_front x).2 = PushStatus.Success
  unfold Dequeue.push_front
  rw [if_neg hne]

theorem pushList_spec :
    ∀ (l : List α) (d : Dequeue α N), d.Inv → d.len + l.length ≤ N →
      ((pushList d l).2 = true ∧ (pushList d l).1.toList = d.toList ++ l ∧
        (pushList d l).1.Inv ∧ (pushList d l).1.len = d.len + l.length)
  | [], d, h, _ => by
    rw [pushList]
    exact ⟨rfl, by rw [List.append_nil], h, by simp⟩
  | a :: t, d, h, hle => by
    have hne : d.len ≠ N := by
      rw [List.length_cons] at hle
      omega
    rw [pushList, push_back_success_status hne a]
    obtain ⟨ih1, ih2, ih3, ih4⟩ := pushList_spec t ((d.push_back a).1)
      (h.push_back a) (by
        rw [BPeekN.push_back_success_len hne a]
        rw [List.length_cons] at hle
        omega)
    refine ⟨ih1, ?_, ih3, ?_⟩
    · show (pushList (d.push_back a).1 t).1.toList = d.toList ++ a :: t
      rw [ih2, toList_push_back h (by omega) a, List.append_assoc]
      rfl
    · show (pushList (d.push_back a).1 t).1.len = d.len + (a :: t).length
      rw [ih4, BPeekN.push_back_success_len hne a, List.length_cons]
      omega

theorem pushFrontList_spec :
    ∀ (l : List α) (d : Dequeue α N), d.Inv → d.len + l.length ≤ N →
      ((pushFrontList d l).2 = true ∧
        (pushFrontList d l).1.toList = l.reverse ++ d.toList ∧
        (pushFrontList d l).1.Inv ∧
        (pushFrontList d l).1.len = d.len + l.length)
  | [], d, h, _ => by
    rw [pushFrontList]
    exact ⟨rfl, by rw [List.reverse_nil, List.nil_append], h, by simp⟩
  | a :: t, d, h, hle => by
    have hne : d.len ≠ N := by
      rw [List.length_cons] at hle
      omega
    rw [pushFrontList, push_front_success_status hne a]
    obtain ⟨ih1, ih2, ih3, ih4⟩ := pushFrontList_spec t ((d.push_front a).1)
      (h.push_front a) (by
        rw [push_front_success_len hne a]
        rw [List.length_cons] at hle
        omega)
    refine ⟨ih1, ?_, ih3, ?_⟩
    · show (pushFrontList (d.push_front a).1 t).1.toList =
        (a :: t).reverse ++ d.toList
      rw [ih2, toList_push_front h (by omega) a, List.reverse_cons,
        List.append_assoc]
      rfl
    · show (pushFrontList (d.push_front a).1 t).1.len = d.len + (a :: t).length
      rw [ih4, push_front_success_len hne a, List.length_cons]
      omega

end Dequeue

namespace BPeekN

variable {α β : Type} {N : Nat}

open Dequeue

/-- `bpeek` is `ensure_elements` with the window discarded. -/
theorem bpeek_eq (b : BPeekN α N) (k : Nat) :
    (b.bpeek k).1 = ((b.ensure_elements k).1).isSome ∧
      (b.bpeek k).2 = (b.ensure_elements k).2 := by
  unfold bpeek
  cases h : b.ensure_elements k with
  | mk o b' =>
    cases o with
    | none => exact ⟨rfl, rfl⟩
    | some w => exact ⟨rfl, rfl⟩

/-- Cursor construction never changes the unbuffered view. -/
theorem ensure_elems_eq {b : BPeekN α N} (hq : b.queue.Inv) {k : Nat}
    (hk : k ≤ N) :
    (b.ensure_elements k).2.elems = b.elems ∧
      (b.ensure_elements k).2.queue.Inv := by
  by_cases h1 : k ≤ b.queue.len
  · rw [ensure_of_enough hq h1]
    exact ⟨rfl, hq⟩
  · by_cases h2 : k - b.queue.len ≤ b.inner.length
    · obtain ⟨-, he2, he3, he4⟩ := ensure_of_pull_success hq hk (by omega) h2
      refine ⟨?_, he4⟩
      unfold elems
      rw [he2, he3, List.append_assoc, List.take_append_drop]
    · obtain ⟨-, he2, he3, he4⟩ := ensure_of_pull_fail hq hk (by omega)
        (by omega)
      refine ⟨?_, he4⟩
      unfold elems
      rw [he2, he3, List.append_nil]

end BPeekN

section SampleStates

/-- A full two-slot buffer holding `[10, 20]`. -/
def sampleQ2 : Dequeue Nat 2 :=
  (((Dequeue.new Nat 2).push_back 10).1.push_back 20).1

/-- A three-slot buffer holding `[1, 2]` (one slot free). -/
def sampleQ3 : Dequeue Nat 3 :=
  (((Dequeue.new Nat 3).push_back 1).1.push_back 2).1

/-- An adapter over a partially-buffered source: `[10, 20]` buffered,
`[30, 40]` still in the source. -/
def sampleB2 : BPeekN Nat 2 := ⟨[30, 40], sampleQ2⟩

/-- A capacity-3 adapter with `[1, 2]` buffered and `[30, 40]` pending. -/
def sampleB3 : BPeekN Nat 3 := ⟨[30, 40], sampleQ3⟩

/-- A capacity-3 adapter with `[1, 2]` buffered and an exhausted source. -/
def sampleB3e : BPeekN Nat 3 := ⟨[], sampleQ3⟩

/-- The states traversed by the cursor scenario of spec section 8:
source `0,1,2,3,4`, window capacity 3. -/
def scen0 : BPeekN Nat 3 := BPeekN.bpeekable [0, 1, 2, 3, 4] 3

def scen1 : BPeekN Nat 3 := (scen0.bpeek 1).2

def scen2 : BPeekN Nat 3 := (scen1.peek_forward 1).2

def scen3 : BPeekN Nat 3 := (scen2.peek_forward 2).2

def scen4 : BPeekN Nat 3 := ((scen3.peek_prev).take_all 2).2

def scen5 : BPeekN Nat 3 := (scen4.bpeek 3).2

def scen6 : BPeekN Nat 3 := (((scen5.peek_prev).peek_prev).take_all 1).2

def scen7 : BPeekN Nat 3 := (scen6.bpeek 1).2

def scen8 : BPeekN Nat 3 := (scen7.take_all 1).2

def scen9 : BPeekN Nat 3 := (scen8.bpeek 1).2

def scen10 : BPeekN Nat 3 := (scen9.take_all 1).2

end SampleStates

/-- C5: for every buffer of capacity `N`, starting from empty, `N`
successive `push_back` (or `push_front`) calls all succeed; on a full
buffer (`length = N`), `push_back` and `push_front` reject, returning the
exact input value back to the caller, and the length remains `N`. -/
theorem claim_C5_capacity_rejection (α : Type) (N : Nat) :
    (∀ l : List α, l.length ≤ N →
      (Dequeue.pushList (Dequeue.new α N) l).2 = true ∧
      (Dequeue.pushFrontList (Dequeue.new α N) l).2 = true) ∧
    (∀ (d : Dequeue α N) (x : α), d.len = N →
      d.push_back x = (d, Dequeue.PushStatus.Rejected x) ∧
      d.push_front x = (d, Dequeue.PushStatus.Rejected x) ∧
      ((d.push_back x).1).len = N ∧ ((d.push_front x).1).len = N) := by
  constructor
  · intro l hl
    cases l with
    | nil => exact ⟨rfl, rfl⟩
    | cons a t =>
      have hN : 0 < N := by
        rw [List.length_cons] at hl
        omega
      have hInv := Dequeue.Inv.new α hN
      have hz : (Dequeue.new α N).len = 0 := rfl
      refine ⟨(Dequeue.pushList_spec (a :: t) (Dequeue.new α N) hInv
        (by omega)).1, (Dequeue.pushFrontList_spec (a :: t) (Dequeue.new α N)
        hInv (by omega)).1⟩
  · intro d x hfull
    have hb : d.push_back x = (d, Dequeue.PushStatus.Rejected x) := by
      unfold Dequeue.push_back
      rw [if_pos hfull]
    have hf : d.push_front x = (d, Dequeue.PushStatus.Rejected x) := by
      unfold Dequeue.push_front
      rw [if_pos hfull]
    exact ⟨hb, hf, by rw [hb]; exact hfull, by rw [hf]; exact hfull⟩

/-- Witness for C5 at capacity 3 / a concrete full buffer. -/
theorem claim_C5_witness :
    ((Dequeue.pushList (Dequeue.new Nat 3) [1, 2, 3]).2 = true ∧
      (Dequeue.pushFrontList (Dequeue.new Nat 3) [1, 2, 3]).2 = true) ∧
    (sampleQ2.len = 2 ∧
      sampleQ2.push_back 99 = (sampleQ2, Dequeue.PushStatus.Rejected 99) ∧
      sampleQ2.push_front 99 = (sampleQ2, Dequeue.PushStatus.Rejected 99)) :=
  ⟨(claim_C5_capacity_rejection Nat 3).1 [1, 2, 3] (by decide),
    ⟨by decide, ((claim_C5_capacity_rejection Nat 2).2 sampleQ2 99 (by decide)).1,
      ((claim_C5_capacity_rejection Nat 2).2 sampleQ2 99 (by decide)).2.1⟩⟩

/-- C6: `push_back_overwrite` on a full buffer evicts the front and
appends (`s[1..] ++ [x]`), `push_front_overwrite` evicts the back and
prepends (`x :: s[..N-1]`), both keeping length `N`; on a non-full
buffer both behave as plain insertion with length increased by one. -/
theorem claim_C6_overwrite_semantics (α : Type) (N : Nat) (d : Dequeue α N)
    (h : d.Inv) (x : α) :
    (d.len = N →
      (d.push_back_overwrite x).toList = d.toList.tail ++ [x] ∧
      (d.push_back_overwrite x).len = N ∧
      (d.push_front_overwrite x).toList = x :: d.toList.dropLast ∧
      (d.push_front_overwrite x).len = N) ∧
    (d.len < N →
      (d.push_back_overwrite x).toList = d.toList ++ [x] ∧
      (d.push_back_overwrite x).len = d.len + 1 ∧
      (d.push_front_overwrite x).toList = x :: d.toList ∧
      (d.push_front_overwrite x).len = d.len + 1) := by
  constructor
  · intro hfull
    have hN := h.pos
    have h1 := Dequeue.toList_push_back_overwrite_full h hfull x
    have h2 := Dequeue.toList_push_front_overwrite_full h hfull x
    have hlen1 : (d.push_back_overwrite x).len = N := by
      have := Dequeue.toList_length (h.push_back_overwrite x)
      rw [h1, List.length_append, List.length_tail,
        Dequeue.toList_length h, hfull] at this
      simp at this
      omega
    have hlen2 : (d.push_front_overwrite x).len = N := by
      have := Dequeue.toList_length (h.push_front_overwrite x)
      rw [h2, List.length_cons, List.length_dropLast,
        Dequeue.toList_length h, hfull] at this
      omega
    exact ⟨h1, hlen1, h2, hlen2⟩
  · intro hlt
    have hne : d.len ≠ N := by omega
    rw [Dequeue.push_back_overwrite_eq hne x, Dequeue.push_front_overwrite_eq hne x]
    exact ⟨Dequeue.toList_push_back h hlt x, BPeekN.push_back_success_len hne x,
      Dequeue.toList_push_front h hlt x, Dequeue.push_front_success_len hne x⟩

/-- Witness for C6 on a concrete full and a concrete non-full buffer. -/
theorem claim_C6_witness :
    (sampleQ2.Inv ∧ sampleQ2.len = 2 ∧
      (sampleQ2.push_back_overwrite 99).toList = sampleQ2.toList.tail ++ [99] ∧
      (sampleQ2.push_front_overwrite 99).toList = 99 :: sampleQ2.toList.dropLast) ∧
    (sampleQ3.Inv ∧ sampleQ3.len < 3 ∧
      (sampleQ3.push_back_overwrite 99).toList = sampleQ3.toList ++ [99] ∧
      (sampleQ3.push_front_overwrite 99).toList = 99 :: sampleQ3.toList) := by
  refine ⟨⟨by decide, by decide, ?_, ?_⟩, ⟨by decide, by decide, ?_, ?_⟩⟩
  · exact ((claim_C6_overwrite_semantics Nat 2 sampleQ2 (by decide) 99).1
      (by decide)).1
  · exact ((claim_C6_overwrite_semantics Nat 2 sampleQ2 (by decide) 99).1
      (by decide)).2.2.1
  · exact ((claim_C6_overwrite_semantics Nat 3 sampleQ3 (by decide) 99).2
      (by decide)).1
  · exact ((claim_C6_overwrite_semantics Nat 3 sampleQ3 (by decide) 99).2
      (by decide)).2.2.1

/-- C7: every ring-buffer operation (`push_back`, `push_front`, the two
overwrite pushes, `pop_back`, `pop_front`, `clear`, `clone`) preserves
the representation invariant (`length ≤ N`, `start < N`, logical index
`i` at physical slot `(start + i) % N`, exactly those slots occupied),
and `is_empty` holds iff `len = 0`. -/
theorem claim_C7_invariant_preservation (α : Type) (N : Nat)
    (d : Dequeue α N) (h : d.Inv) (x : α) :
    ((d.push_back x).1).Inv ∧ ((d.push_front x).1).Inv ∧
      (d.push_back_overwrite x).Inv ∧ (d.push_front_overwrite x).Inv ∧
      ((d.pop_back).2).Inv ∧ ((d.pop_front).2).Inv ∧
      (d.clear).Inv ∧ (d.clone).Inv ∧
      (d.is_empty = true ↔ d.len = 0) :=
  ⟨h.push_back x, h.push_front x, h.push_back_overwrite x,
    h.push_front_overwrite x, h.pop_back, h.pop_front, h.clear, h.clone, by
      unfold Dequeue.is_empty
      simp⟩

/-- Witness for C7 on a concrete wrapped buffer. -/
theorem claim_C7_witness :
    sampleQ2.Inv ∧
      (((sampleQ2.push_back 9).1).Inv ∧ ((sampleQ2.push_front 9).1).Inv ∧
        (sampleQ2.push_back_overwrite 9).Inv ∧
        (sampleQ2.push_front_overwrite 9).Inv ∧
        ((sampleQ2.pop_back).2).Inv ∧ ((sampleQ2.pop_front).2).Inv ∧
        (sampleQ2.clear).Inv ∧ (sampleQ2.clone).Inv ∧
        (sampleQ2.is_empty = true ↔ sampleQ2.len = 0)) :=
  ⟨by decide, claim_C7_invariant_preservation Nat 2 sampleQ2 (by decide) 9⟩

/-- C9: pushing `1, 2, 3` with `push_back` then popping with `pop_front`
yields `1, 2, 3`, while popping with `pop_back` yields `3, 2, 1`; in
general, after `push_back` of any sequence into an empty buffer,
`pop_front` returns insertion order and `pop_back` its reverse. -/
theorem claim_C9_fifo_lifo (α : Type) (N : Nat) (hN : 3 ≤ N) :
    (Dequeue.popAll (Dequeue.pushList (Dequeue.new Nat N) [1, 2, 3]).1 =
        [1, 2, 3] ∧
      Dequeue.popBackAll (Dequeue.pushList (Dequeue.new Nat N) [1, 2, 3]).1 =
        [3, 2, 1]) ∧
    (∀ l : List α, l.length ≤ N →
      Dequeue.popAll (Dequeue.pushList (Dequeue.new α N) l).1 = l ∧
      Dequeue.popBackAll (Dequeue.pushList (Dequeue.new α N) l).1 = l.reverse) := by
  have hN0 : 0 < N := by omega
  have key : ∀ (β : Type) (l : List β), l.length ≤ N →
      Dequeue.popAll (Dequeue.pushList (Dequeue.new β N) l).1 = l ∧
      Dequeue.popBackAll (Dequeue.pushList (Dequeue.new β N) l).1 = l.reverse := by
    intro β l hl
    have hInv := Dequeue.Inv.new β hN0
    have hz : (Dequeue.new β N).len = 0 := rfl
    obtain ⟨-, h2, h3, -⟩ := Dequeue.pushList_spec l (Dequeue.new β N) hInv
      (by omega)
    have hnil : (Dequeue.new β N).toList = [] := Dequeue.toList_new
    constructor
    · rw [Dequeue.popAll_eq_toList h3, h2, hnil, List.nil_append]
    · rw [Dequeue.popBackAll_eq_reverse h3, h2, hnil, List.nil_append]
  refine ⟨?_, key α⟩
  obtain ⟨k1, k2⟩ := key Nat [1, 2, 3] (by simpa using hN)
  refine ⟨k1, ?_⟩
  rw [k2]
  rfl

/-- Witness for C9 at capacity 3. -/
theorem claim_C9_witness :
    3 ≤ 3 ∧
      (Dequeue.popAll (Dequeue.pushList (Dequeue.new Nat 3) [1, 2, 3]).1 =
          [1, 2, 3] ∧
        Dequeue.popBackAll (Dequeue.pushList (Dequeue.new Nat 3) [1, 2, 3]).1 =
          [3, 2, 1]) :=
  ⟨by decide, (claim_C9_fifo_lifo Nat 3 (by decide)).1⟩

/-- C10: a rejected `push_back` or `push_front` on a full buffer leaves
the buffer bit-for-bit unchanged — same stored slots, same `start`, same
`len` — and hands the exact input value back. -/
theorem claim_C10_rejected_push_frame (α : Type) (N : Nat) (d : Dequeue α N)
    (x : α) (hfull : d.len = N) :
    d.push_back x = (d, Dequeue.PushStatus.Rejected x) ∧
      d.push_front x = (d, Dequeue.PushStatus.Rejected x) := by
  unfold Dequeue.push_back Dequeue.push_front
  rw [if_pos hfull, if_pos hfull]
  exact ⟨rfl, rfl⟩

/-- Witness for C10 on a concrete full buffer. -/
theorem claim_C10_witness :
    sampleQ2.len = 2 ∧
      (sampleQ2.push_back 77 = (sampleQ2, Dequeue.PushStatus.Rejected 77) ∧
        sampleQ2.push_front 77 = (sampleQ2, Dequeue.PushStatus.Rejected 77)) :=
  ⟨by decide, claim_C10_rejected_push_frame Nat 2 sampleQ2 77 (by decide)⟩

/-- C1 (amended): with the partition clause restricted to positive
capacity, every reimplemented bulk operation — count, last, for_each,
fold, reduce, all, any, find, find_map, position, partition, size_hint,
and reverse iteration via next_back — applied to the adapter agrees with
the same operation applied directly to the unbuffered source sequence
(buffered prefix ++ remaining source).  For `N = 0` the partition clause
fails (see the counterexample theorem). -/
theorem claim_C1_bulk_ops_amended (α β : Type) (N : Nat) (b : BPeekN α N)
    (hq : b.queue.Inv) :
    b.count = (b.elems).length ∧
    b.size_hint = ((b.elems).length, some (b.elems).length) ∧
    b.last = (b.elems).getLast? ∧
    b.forEachTrace = b.elems ∧
    (∀ (init : β) (f : β → α → β), b.fold init f = (b.elems).foldl f init) ∧
    (∀ f : α → α → α, b.reduce f = BPeekN.listReduce f (b.elems)) ∧
    (∀ f : α → Bool, b.all f = (b.elems).all f) ∧
    (∀ f : α → Bool, b.any f = (b.elems).any f) ∧
    (∀ p : α → Bool, b.find p = (b.elems).find? p) ∧
    (∀ f : α → Option β, b.find_map f = (b.elems).findSome? f) ∧
    (∀ p : α → Bool, b.position p = (b.elems).findIdx? p) ∧
    ((b.next_back).1 = (b.elems).getLast? ∧
      (b.next_back).2.elems = (b.elems).dropLast) ∧
    (0 < N → ∀ p : α → Bool, b.partitionBP p = (b.elems).partition p) := by
  refine ⟨BPeekN.count_eq hq, BPeekN.size_hint_eq hq, BPeekN.last_eq hq,
    BPeekN.forEachTrace_eq hq, fun init f => BPeekN.fold_eq hq init f,
    fun f => BPeekN.reduce_eq hq f, fun f => BPeekN.all_eq hq f,
    fun f => BPeekN.any_eq hq f, fun p => BPeekN.find_eq hq p,
    fun f => BPeekN.find_map_eq hq f, fun p => BPeekN.position_eq hq p,
    ⟨(BPeekN.next_back_spec hq).1, (BPeekN.next_back_spec hq).2.1⟩,
    fun hN p => ?_⟩
  rw [BPeekN.partitionBP_eq hq hN p, List.partition_eq_filter_filter]
  rfl

/-- C1 counterexample: at capacity `N = 0` the adapter's `partition`
returns two empty collections, dropping the source element, so it is not
equivalent to partitioning the unbuffered sequence. -/
theorem claim_C1_counterexample :
    BPeekN.partitionBP (BPeekN.bpeekable ([0] : List Nat) 0) (fun _ => true) ≠
      (BPeekN.elems (BPeekN.bpeekable ([0] : List Nat) 0)).partition
        (fun _ => true) := by
  decide

/-- Witness for C1 (amended) on a concrete partially-buffered adapter. -/
theorem claim_C1_witness :
    sampleB2.queue.Inv ∧ 0 < 2 ∧
      sampleB2.count = (sampleB2.elems).length ∧
      sampleB2.last = (sampleB2.elems).getLast? ∧
      sampleB2.all (fun x => x % 2 == 0) =
        (sampleB2.elems).all (fun x => x % 2 == 0) ∧
      sampleB2.partitionBP (fun x => x % 20 == 0) =
        (sampleB2.elems).partition (fun x => x % 20 == 0) := by
  obtain ⟨h1, h2, h3, h4, h5, h6, h7, h8, h9, h10, h11, h12, h13⟩ :=
    claim_C1_bulk_ops_amended Nat Nat 2 sampleB2 (by decide)
  exact ⟨by decide, by decide, h1, h3, h7 _, h13 (by decide) _⟩

/-- C2 (code bug): `nth` on the adapter diverges from `nth` on the raw
sequence.  With an empty buffer, `nth(0)` panics (the
`expect("claimed to have an element")` on an empty queue) instead of
returning the source's first element; with `n` in `1..=len`, the buffer
is popped only `n` times (the `for _ in 1..n` discard loop plus one), so
the element at index `n - 1` is returned instead of index `n`. -/
theorem claim_C2_nth_divergence :
    ((BPeekN.bpeekable ([7] : List Nat) 1).nth 0 = Except.error () ∧
      (BPeekN.elems (BPeekN.bpeekable ([7] : List Nat) 1))[0]? = some 7) ∧
    ((sampleB2.nth 1).map Prod.fst = Except.ok (some 10) ∧
      (BPeekN.elems sampleB2)[1]? = some 20) :=
  ⟨⟨rfl, rfl⟩, ⟨rfl, rfl⟩⟩

/-- C3: `next` returns the buffer's front element when the buffer is
non-empty and otherwise pulls directly from the source; and the
unbuffered view (buffer front-to-back ++ remaining source) is preserved
by every adapter operation: `next` splits it as head and tail, cursor
construction (`ensure_elements`) and `peek_forward` leave it unchanged,
and `take_all` splits off exactly the returned prefix. -/
theorem claim_C3_next_contract_invariant (α : Type) (N : Nat)
    (b : BPeekN α N) (hq : b.queue.Inv) :
    ((b.queue.is_empty = false → (b.next).1 = b.queue.get 0) ∧
      (b.queue.is_empty = true → (b.next).1 = b.inner.head?) ∧
      (b.next).1 = (b.elems).head? ∧
      (b.next).2.elems = (b.elems).tail) ∧
    (∀ k : Nat, k ≤ N → (b.ensure_elements k).2.elems = b.elems) ∧
    (∀ ind : Nat, ind < N → (b.peek_forward ind).2.elems = b.elems) ∧
    (∀ ind : Nat, ind ≤ b.queue.len →
      (b.take_all ind).1 ++ (b.take_all ind).2.elems = b.elems) := by
  obtain ⟨h1, h2, h3, h4, h5⟩ := BPeekN.next_spec hq
  refine ⟨⟨h4, h5, h1, h2⟩, fun k hk => (BPeekN.ensure_elems_eq hq hk).1,
    fun ind hind => (BPeekN.peek_forward_spec hq hind).1, fun ind hind => ?_⟩
  obtain ⟨t1, t2, -⟩ := BPeekN.take_all_spec hq hind
  rw [t1, t2, List.take_append_drop]

/-- Witness for C3 on a concrete partially-buffered adapter. -/
theorem claim_C3_witness :
    sampleB2.queue.Inv ∧
      (sampleB2.next).1 = (sampleB2.elems).head? ∧
      (sampleB2.next).2.elems = (sampleB2.elems).tail ∧
      1 ≤ 2 ∧ (sampleB2.ensure_elements 1).2.elems = sampleB2.elems ∧
      1 < 2 ∧ (sampleB2.peek_forward 1).2.elems = sampleB2.elems ∧
      1 ≤ sampleB2.queue.len ∧
      (sampleB2.take_all 1).1 ++ (sampleB2.take_all 1).2.elems =
        sampleB2.elems := by
  obtain ⟨⟨-, -, h1, h2⟩, h3, h4, h5⟩ :=
    claim_C3_next_contract_invariant Nat 2 sampleB2 (by decide)
  exact ⟨by decide, h1, h2, by decide, h3 1 (by decide), by decide,
    h4 1 (by decide), by decide, h5 1 (by decide)⟩

/-- C8: cursor construction (`ensure(K)`, `K ≤ N`) pulls from the source
only when the buffer holds fewer than `K` elements — otherwise the state
is untouched — and then moves exactly `K` minus the buffered count from
the source to the buffer; if the source is exhausted first, no window is
produced but the buffer keeps everything actually pulled; `bpeek` is
exactly this with the window reduced to a success flag. -/
theorem claim_C8_ensure_pull (α : Type) (N : Nat) (b : BPeekN α N)
    (hq : b.queue.Inv) (K : Nat) (hK : K ≤ N) :
    (K ≤ b.queue.len →
      b.ensure_elements K = (some (b.queue.toList.take K), b)) ∧
    (b.queue.len < K → K - b.queue.len ≤ b.inner.length →
      ((b.ensure_elements K).1.isSome = true ∧
        (b.ensure_elements K).2.inner = b.inner.drop (K - b.queue.len) ∧
        (b.ensure_elements K).2.queue.toList =
          b.queue.toList ++ b.inner.take (K - b.queue.len))) ∧
    (b.queue.len < K → b.inner.length < K - b.queue.len →
      ((b.ensure_elements K).1 = none ∧
        (b.ensure_elements K).2.inner = [] ∧
        (b.ensure_elements K).2.queue.toList =
          b.queue.toList ++ b.inner)) ∧
    ((b.bpeek K).1 = ((b.ensure_elements K).1).isSome ∧
      (b.bpeek K).2 = (b.ensure_elements K).2) := by
  refine ⟨fun hle => BPeekN.ensure_of_enough hq hle, ?_, ?_,
    BPeekN.bpeek_eq b K⟩
  · intro hlt hav
    obtain ⟨e1, e2, e3, -⟩ := BPeekN.ensure_of_pull_success hq hK hlt hav
    exact ⟨by rw [e1]; rfl, e2, e3⟩
  · intro hlt hav
    obtain ⟨e1, e2, e3, -⟩ := BPeekN.ensure_of_pull_fail hq hK hlt hav
    exact ⟨e1, e2, e3⟩

/-- Witness for C8: one pull-success state, plus the enough-buffered and
exhausted cases on related states. -/
theorem claim_C8_witness :
    (sampleB3.queue.Inv ∧ 3 ≤ 3 ∧ sampleB3.queue.len < 3 ∧
      3 - sampleB3.queue.len ≤ sampleB3.inner.length ∧
      (sampleB3.ensure_elements 3).1.isSome = true ∧
      (sampleB3.ensure_elements 3).2.queue.toList =
        sampleB3.queue.toList ++
          sampleB3.inner.take (3 - sampleB3.queue.len)) ∧
    (2 ≤ sampleB3.queue.len ∧
      sampleB3.ensure_elements 2 =
        (some (sampleB3.queue.toList.take 2), sampleB3)) ∧
    (sampleB3e.inner.length < 3 - sampleB3e.queue.len ∧
      (sampleB3e.ensure_elements 3).1 = none) := by
  obtain ⟨w1, w2, -, -⟩ :=
    claim_C8_ensure_pull Nat 3 sampleB3 (by decide) 3 (by decide)
  obtain ⟨x1, -, -, -⟩ :=
    claim_C8_ensure_pull Nat 3 sampleB3 (by decide) 2 (by decide)
  obtain ⟨-, -, y3, -⟩ :=
    claim_C8_ensure_pull Nat 3 sampleB3e (by decide) 3 (by decide)
  obtain ⟨w2a, -, w2c⟩ := w2 (by decide) (by decide)
  exact ⟨⟨by decide, by decide, by decide, by decide, w2a, w2c⟩,
    ⟨by decide, x1 (by decide)⟩,
    ⟨by decide, (y3 (by decide) (by decide)).1⟩⟩

/-- C4: the exact cursor scenario of spec section 8 on source
`0,1,2,3,4` with window capacity 3: `peek1` yields 0; two
`peek_forward`s grow the window to `[0,1,2]`; one `peek_prev` then
`take_all` removes and returns `[0,1]`; `peek3` then yields `[2,3,4]`;
two `peek_prev`s then `take_all` returns `[2]`; then `peek1` sees `[3]`
(taken), `peek3` and `peek2` report absence, `peek1` still succeeds with
`[4]` (taken), the final `next` reports absence, and further peeks keep
reporting absence. -/
theorem claim_C4_cursor_scenario :
    (scen0.bpeek 1).1 = true ∧ scen1.peekDeref 1 = some 0 ∧
    (scen1.peek_forward 1).1 = true ∧ (scen2.peek_forward 2).1 = true ∧
    scen3.peek_all 3 = [0, 1, 2] ∧
    ((scen3.peek_prev).take_all 2).1 = [0, 1] ∧
    (scen4.bpeek 3).1 = true ∧ scen5.peek_all 3 = [2, 3, 4] ∧
    (((scen5.peek_prev).peek_prev).take_all 1).1 = [2] ∧
    (scen6.bpeek 1).1 = true ∧ scen7.peek_all 1 = [3] ∧
    (scen7.take_all 1).1 = [3] ∧
    (scen8.bpeek 3).1 = false ∧ (scen8.bpeek 2).1 = false ∧
    (scen8.bpeek 1).1 = true ∧ scen9.peek_all 1 = [4] ∧
    (scen9.take_all 1).1 = [4] ∧
    (scen10.next).1 = none ∧
    ((scen10.next).2.bpeek 1).1 = false ∧
    (scen10.bpeek 1).1 = false := by
  decide

end BetterPeekable
